import Mathlib

/-!
Verification of the agpm skill manager (kepler16/agpm) against its
natural-language specification.  The Rust sources under src/ are shallowly
embedded: pure string processing becomes Lean functions on character lists,
the filesystem becomes an explicit directory-tree datatype, network effects
(HTTP lookup, git clone) become oracle arguments, and fallible operations
return Except.  Panics (unchecked slicing) are modelled by a dedicated
result constructor.
-/

namespace Agpm

/-! ## Generic list/character helpers used by the embedding -/

/-- Split a character list at the first occurrence of `c`; `none` when `c`
does not occur.  Mirrors the behaviour of a greedy `[^c]*` capture followed
by the literal `c`. -/
def splitAtChar (c : Char) : List Char → Option (List Char × List Char)
  | [] => none
  | x :: xs =>
    if x = c then some ([], xs)
    else (splitAtChar c xs).map (fun p => (x :: p.1, p.2))

/-- Model of `([^/]+)/`: a nonempty run of non-slash characters followed by a slash. -/
def takeSeg (cs : List Char) : Option (List Char × List Char) :=
  match splitAtChar '/' cs with
  | some (l, r) => if l.isEmpty then none else some (l, r)
  | none => none

/-- Strip a literal character-list prefix. -/
def dropPref : List Char → List Char → Option (List Char)
  | [], s => some s
  | _ :: _, [] => none
  | p :: ps, s :: ss => if p = s then dropPref ps ss else none

/-- Split at the first occurrence of the pattern `pat`, returning the text
before it and the text after it (mirrors `str::find`). -/
def splitAtSub (pat : List Char) : List Char → Option (List Char × List Char)
  | [] => if pat.isEmpty then some ([], []) else none
  | c :: cs =>
    match dropPref pat (c :: cs) with
    | some rest => some ([], rest)
    | none => (splitAtSub pat cs).map (fun p => (c :: p.1, p.2))

/-- Substring test (mirrors `str::contains`). -/
def containsSub (pat s : List Char) : Bool :=
  (splitAtSub pat s).isSome

/-- Leftmost-first search: try the matcher at every suffix, earliest start
wins.  Models an unanchored regex match. -/
def searchMatch {α : Type} (m : List Char → Option α) : List Char → Option α
  | [] => m []
  | c :: cs =>
    match m (c :: cs) with
    | some r => some r
    | none => searchMatch m cs

/-- Trim unicode whitespace at both ends (mirrors `str::trim`). -/
def trimChars (cs : List Char) : List Char :=
  ((cs.dropWhile Char.isWhitespace).reverse.dropWhile Char.isWhitespace).reverse

/-! ## Source locator (src/git.rs, `GitSource`) -/

/-- Parsed git source information (src/git.rs lines 10-22). -/
structure GitSource where
  url : String
  owner : Option String
  repo : Option String
  ref_ : Option String
  subpath : Option String
deriving DecidableEq, Repr

/-- Model of `([^/]+?)(?:\.git)?$` applied to a slash-free remainder: the non-greedy
capture strips exactly one trailing `.git` when the remainder is longer
than it. -/
def stripGitSuffix (r : List Char) : List Char :=
  if 4 < r.length && List.isSuffixOf ".git".data r then r.take (r.length - 4) else r

/-- Model of `github\.com/([^/]+)/([^/]+)/tree/([^/]+)/(.+)` matched at one start
position (src/git.rs lines 34-45). -/
def ghTreePathAt (t : List Char) : Option GitSource := do
  let r ← dropPref "github.com/".data t
  let (owner, r) ← takeSeg r
  let (repo, r) ← takeSeg r
  let r ← dropPref "tree/".data r
  let (tref, rest) ← takeSeg r
  if rest.isEmpty then none else
    some { url := "https://github.com/" ++ String.mk owner ++ "/" ++ String.mk repo ++ ".git",
           owner := some (String.mk owner), repo := some (String.mk repo),
           ref_ := some (String.mk tref), subpath := some (String.mk rest) }

/-- Model of `github\.com/([^/]+)/([^/]+)/tree/([^/]+)$` at one start position
(src/git.rs lines 48-59). -/
def ghTreeAt (t : List Char) : Option GitSource := do
  let r ← dropPref "github.com/".data t
  let (owner, r) ← takeSeg r
  let (repo, r) ← takeSeg r
  let r ← dropPref "tree/".data r
  if r.isEmpty || r.contains '/' then none else
    some { url := "https://github.com/" ++ String.mk owner ++ "/" ++ String.mk repo ++ ".git",
           owner := some (String.mk owner), repo := some (String.mk repo),
           ref_ := some (String.mk r), subpath := none }

/-- Model of `github\.com/([^/]+)/([^/]+?)(?:\.git)?$` at one start position
(src/git.rs lines 62-73). -/
def ghRepoAt (t : List Char) : Option GitSource := do
  let r ← dropPref "github.com/".data t
  let (owner, r) ← takeSeg r
  if r.isEmpty || r.contains '/' then none else
    let repo := stripGitSuffix r
    some { url := "https://github.com/" ++ String.mk owner ++ "/" ++ String.mk repo ++ ".git",
           owner := some (String.mk owner), repo := some (String.mk repo),
           ref_ := none, subpath := none }

/-- The gitlab tree pattern of src/git.rs lines 76-87: like the github tree
pattern but on host gitlab.com and with a literal "-" path segment between
the repo name and the "tree" segment. -/
def glTreePathAt (t : List Char) : Option GitSource := do
  let r ← dropPref "gitlab.com/".data t
  let (owner, r) ← takeSeg r
  let (repo, r) ← takeSeg r
  let r ← dropPref "-/tree/".data r
  let (tref, rest) ← takeSeg r
  if rest.isEmpty then none else
    some { url := "https://gitlab.com/" ++ String.mk owner ++ "/" ++ String.mk repo ++ ".git",
           owner := some (String.mk owner), repo := some (String.mk repo),
           ref_ := some (String.mk tref), subpath := some (String.mk rest) }

/-- Model of `git@([^:]+):([^/]+)/([^/]+?)(?:\.git)?$` at one start position
(src/git.rs lines 90-102). -/
def sshAt (t : List Char) : Option GitSource := do
  let r ← dropPref "git@".data t
  let (host, r) ← splitAtChar ':' r
  if host.isEmpty then none else
  let (owner, r) ← takeSeg r
  if r.isEmpty || r.contains '/' then none else
    let repo := stripGitSuffix r
    some { url := "git@" ++ String.mk host ++ ":" ++ String.mk owner ++ "/" ++ String.mk repo ++ ".git",
           owner := some (String.mk owner), repo := some (String.mk repo),
           ref_ := none, subpath := none }

/-- Model of `^([^/]+)/([^/]+)(?:/(.+))?$` — anchored shorthand pattern
(src/git.rs lines 105-118, before its guard conditions). -/
def shorthandFull (cs : List Char) : Option GitSource := do
  let (owner, r) ← takeSeg cs
  match splitAtChar '/' r with
  | none =>
    if r.isEmpty then none else
      some { url := "https://github.com/" ++ String.mk owner ++ "/" ++ String.mk r ++ ".git",
             owner := some (String.mk owner), repo := some (String.mk r),
             ref_ := none, subpath := none }
  | some (repo, sub) =>
    if repo.isEmpty || sub.isEmpty then none else
      some { url := "https://github.com/" ++ String.mk owner ++ "/" ++ String.mk repo ++ ".git",
             owner := some (String.mk owner), repo := some (String.mk repo),
             ref_ := none, subpath := some (String.mk sub) }

/-- Model of `GitSource::parse` (src/git.rs lines 32-128).  The Rust function returns
`Result` but never errs: the final rule treats the whole input as an opaque
URL, so the model is total. -/
def GitSource.parse (input : String) : GitSource :=
  let cs := input.data
  let fallback : GitSource :=
    { url := input, owner := none, repo := none, ref_ := none, subpath := none }
  match searchMatch ghTreePathAt cs with
  | some r => r
  | none =>
  match searchMatch ghTreeAt cs with
  | some r => r
  | none =>
  match searchMatch ghRepoAt cs with
  | some r => r
  | none =>
  match searchMatch glTreePathAt cs with
  | some r => r
  | none =>
  match searchMatch sshAt cs with
  | some r => r
  | none =>
  match shorthandFull cs with
  | some r =>
    if !cs.contains ':' && !(cs.headD ' ' = '.') && !(cs.headD ' ' = '/') then r
    else fallback
  | none => fallback

/-- Model of `GitSource::canonical` (src/git.rs lines 131-137). -/
def GitSource.canonical (s : GitSource) : String :=
  match s.owner, s.repo with
  | some o, some r => o ++ "/" ++ r
  | _, _ => s.url

/-! ## Filesystem model

A `Dir` is a directory: `manifest` is the content of its `SKILL.md` file
when that file exists and is readable, `files` are its other regular files
(name, content), `subdirs` its subdirectories, both in `read_dir`
enumeration order.  Pathological shapes that make the Rust code fail with
I/O errors (a `SKILL.md` that is itself a directory, a priority-search name
that is a regular file) are outside this model. -/

inductive Dir where
  | mk (manifest : Option String) (files : List (String × String)) (subdirs : List (String × Dir))
deriving Repr

def Dir.manifest : Dir → Option String
  | .mk m _ _ => m

def Dir.files : Dir → List (String × String)
  | .mk _ f _ => f

def Dir.subdirs : Dir → List (String × Dir)
  | .mk _ _ s => s

/-- First-occurrence association-list lookup. -/
def lookupList {α : Type} : List (String × α) → String → Option α
  | [], _ => none
  | (n, v) :: rest, k => if n = k then some v else lookupList rest k

mutual
def decEqDir : (a b : Dir) → Decidable (a = b)
  | .mk m1 f1 s1, .mk m2 f2 s2 =>
    match decEq m1 m2 with
    | isFalse h => isFalse (by intro he; cases he; exact h rfl)
    | isTrue h1 =>
      match decEq f1 f2 with
      | isFalse h => isFalse (by intro he; cases he; exact h rfl)
      | isTrue h2 =>
        match decEqSubdirs s1 s2 with
        | isFalse h => isFalse (by intro he; cases he; exact h rfl)
        | isTrue h3 => isTrue (by rw [h1, h2, h3])
def decEqSubdirs : (a b : List (String × Dir)) → Decidable (a = b)
  | [], [] => isTrue rfl
  | [], _ :: _ => isFalse (by intro h; cases h)
  | _ :: _, [] => isFalse (by intro h; cases h)
  | (n1, d1) :: r1, (n2, d2) :: r2 =>
    match decEq n1 n2 with
    | isFalse h => isFalse (by intro he; injection he with h1 h2; injection h1 with h1a h1b; exact h h1a)
    | isTrue hn =>
      match decEqDir d1 d2 with
      | isFalse h => isFalse (by intro he; injection he with h1 h2; injection h1 with h1a h1b; exact h h1b)
      | isTrue hd =>
        match decEqSubdirs r1 r2 with
        | isFalse h => isFalse (by intro he; injection he with h1 h2; exact h h2)
        | isTrue hr => isTrue (by rw [hn, hd, hr])
end

instance : DecidableEq Dir := decEqDir

def decEqExcept {ε α : Type} [DecidableEq ε] [DecidableEq α] :
    (a b : Except ε α) → Decidable (a = b)
  | .ok a, .ok b =>
    match decEq a b with
    | isTrue h => isTrue (by rw [h])
    | isFalse h => isFalse (by intro he; injection he with h2; exact h h2)
  | .ok _, .error _ => isFalse (by intro h; cases h)
  | .error _, .ok _ => isFalse (by intro h; cases h)
  | .error e, .error f =>
    match decEq e f with
    | isTrue h => isTrue (by rw [h])
    | isFalse h => isFalse (by intro he; injection he with h2; exact h h2)

instance {ε α : Type} [DecidableEq ε] [DecidableEq α] : DecidableEq (Except ε α) :=
  decEqExcept

/-- Navigate a directory path through subdirectories. -/
def lookupDirPath : Dir → List String → Option Dir
  | d, [] => some d
  | d, n :: rest =>
    match lookupList d.subdirs n with
    | some s => lookupDirPath s rest
    | none => none

/-- The content of the regular file named `n` directly inside `d`
(`SKILL.md` is held in the `manifest` field). -/
def fileAt (d : Dir) (n : String) : Option String :=
  if n = "SKILL.md" then d.manifest else lookupList d.files n

/-- The content of the regular file at a path below `d`. -/
def lookupFileAt : Dir → List String → Option String
  | _, [] => none
  | d, [n] => fileAt d n
  | d, n :: rest =>
    match lookupList d.subdirs n with
    | some s => lookupFileAt s rest
    | none => none

/-! ## Manifest parsing (src/skill.rs, `parse_frontmatter`) -/

/-- Parsed skill metadata from SKILL.md frontmatter (src/skill.rs lines
9-15); `extra` holds the flattened remaining fields. -/
structure SkillMetadata where
  name : String
  description : String
  extra : List (String × String)
deriving DecidableEq, Repr

/-- The manifest-validation failures of src/skill.rs lines 162-185.  These
are the only errors the discovery model can produce. -/
inductive ManifestErr where
  | noOpeningDelimiter
  | unclosedFrontmatter
  | parseFailed
  | emptyName
  | emptyDescription
deriving DecidableEq, Repr

/-- Split into lines at newline characters. -/
def splitLinesAux : List Char → List Char → List (List Char)
  | [], acc => [acc.reverse]
  | c :: cs, acc =>
    if c = '\n' then acc.reverse :: splitLinesAux cs []
    else splitLinesAux cs (c :: acc)

def splitLines (cs : List Char) : List (List Char) := splitLinesAux cs []

/-- The YAML block of a manifest, modelled for flat scalar mappings: every
non-blank line is `key: value`.  A line without a colon is a parse failure
(serde_yaml would reject the block). -/
def parseYamlLines : List (List Char) → Option (List (String × String))
  | [] => some []
  | l :: ls =>
    if (trimChars l).isEmpty then parseYamlLines ls
    else
      match splitAtChar ':' l with
      | none => none
      | some (k, v) =>
        (parseYamlLines ls).map
          (fun ps => (String.mk (trimChars k), String.mk (trimChars v)) :: ps)

/-- Model of `parse_frontmatter` (src/skill.rs lines 162-185): trim, require an
opening `---`, find the closing `---`, parse the enclosed block, require
nonempty `name` and `description`.  A missing mandatory key is a
deserialization failure in the source; an empty value fails the dedicated
emptiness checks. -/
def parse_frontmatter (content : String) : Except ManifestErr SkillMetadata :=
  let cs := trimChars content.data
  match dropPref "---".data cs with
  | none => .error .noOpeningDelimiter
  | some rest =>
    match splitAtSub "---".data rest with
    | none => .error .unclosedFrontmatter
    | some (block, _) =>
      match parseYamlLines (splitLines (trimChars block)) with
      | none => .error .parseFailed
      | some ps =>
        match lookupList ps "name", lookupList ps "description" with
        | some n, some d =>
          if n = "" then .error .emptyName
          else if d = "" then .error .emptyDescription
          else .ok { name := n, description := d,
                     extra := ps.filter (fun p => p.1 != "name" && p.1 != "description") }
        | _, _ => .error .parseFailed

/-! ## Skill discovery (src/skill.rs, `discover_skills`) -/

/-- A discovered skill (src/skill.rs lines 18-23).  `relativePath` is the
path from the snapshot root in segments; `tree` is the content of the skill
directory itself (standing in for the absolute `path` field, which is what
the install fan-out copies). -/
structure Skill where
  metadata : SkillMetadata
  relativePath : List String
  tree : Dir
deriving DecidableEq, Repr

/-- Model of `SKIP_DIRS` (src/skill.rs line 25). -/
def SKIP_DIRS : List String :=
  ["node_modules", ".git", "dist", "build", "__pycache__", "target"]

/-- Model of `SEARCH_DIRS` (src/skill.rs lines 28-46), as path segments. -/
def SEARCH_DIRS : List (List String) :=
  [["skills"],
   ["skills", ".curated"],
   ["skills", ".experimental"],
   ["skills", ".system"],
   [".agent", "skills"],
   [".agents", "skills"],
   [".claude", "skills"],
   [".codex", "skills"],
   [".cursor", "skills"],
   [".github", "skills"],
   [".goose", "skills"],
   [".kilocode", "skills"],
   [".kiro", "skills"],
   [".opencode", "skills"],
   [".roo", "skills"],
   [".trae", "skills"],
   [".windsurf", "skills"]]

/-- Model of `try_parse_skill` (src/skill.rs lines 139-159): `none` when there is no
`SKILL.md`, a parsed skill when the manifest validates, and the validation
error otherwise. -/
def try_parse_skill (d : Dir) (rel : List String) : Except ManifestErr (Option Skill) :=
  match d.manifest with
  | none => .ok none
  | some content =>
    match parse_frontmatter content with
    | .error e => .error e
    | .ok m => .ok (some { metadata := m, relativePath := rel, tree := d })

/-- Discovery state: accumulated skills and the `seen_names` set (a hash
set in the source, insertion order is irrelevant to membership). -/
abbrev DiscState := List Skill × List String

/-- Push a skill unless its manifest name was already seen
(src/skill.rs lines 89-94 and 112-117). -/
def addDedup (st : DiscState) (sk : Skill) : DiscState :=
  if st.2.contains sk.metadata.name then st
  else (st.1 ++ [sk], st.2 ++ [sk.metadata.name])

/-- Model of `find_skills_in_dir` (src/skill.rs lines 79-98), recursing over the
directory's child list (files are skipped by the `is_dir` check, so only
subdirectories appear). -/
def find_skills_in_dir : List (String × Dir) → List String → DiscState →
    Except ManifestErr DiscState
  | [], _, st => .ok st
  | (n, d) :: rest, rel, st =>
    match try_parse_skill d (rel ++ [n]) with
    | .error e => .error e
    | .ok none => find_skills_in_dir rest rel st
    | .ok (some sk) => find_skills_in_dir rest rel (addDedup st sk)

/-- Model of `starts_with('.')` on a directory name. -/
def startsWithDot (n : String) : Bool :=
  match n.data with
  | [] => false
  | c :: _ => c = '.'

/-- A name the recursive walk skips (src/skill.rs lines 128-129). -/
def skipName (n : String) : Bool :=
  SKIP_DIRS.contains n || startsWithDot n

/-- The recursive walk over a child list, parameterised by the step applied
to each non-skipped subdirectory (src/skill.rs lines 125-133). -/
def walkChildren (step : Dir → List String → DiscState → Except ManifestErr DiscState) :
    List (String × Dir) → List String → DiscState → Except ManifestErr DiscState
  | [], _, st => .ok st
  | (n, c) :: rest, rel, st =>
    if skipName n then walkChildren step rest rel st
    else
      match step c (rel ++ [n]) st with
      | .error e => .error e
      | .ok st1 => walkChildren step rest rel st1

/-- Model of `find_skills_recursive` (src/skill.rs lines 100-136).  The source
guards with `depth > max_depth` for `depth` starting at 0 and
`max_depth = 5`; here `fuel = max_depth + 1 - depth`, so the top-level call
uses fuel 6 and fuel 0 is the cut-off. -/
def find_skills_recursive : Nat → Dir → List String → DiscState →
    Except ManifestErr DiscState
  | 0, _, _, st => .ok st
  | fuel + 1, d, rel, st =>
    match try_parse_skill d rel with
    | .error e => .error e
    | .ok (some sk) => .ok (addDedup st sk)
    | .ok none =>
      walkChildren (fun c r s => find_skills_recursive fuel c r s) d.subdirs rel st

/-- The priority scan over `SEARCH_DIRS` (src/skill.rs lines 64-69): each
existing priority directory is scanned with `find_skills_in_dir`. -/
def scanDirsList (sp : Dir) (rel : List String) :
    List (List String) → DiscState → Except ManifestErr DiscState
  | [], st => .ok st
  | ds :: rest, st =>
    match lookupDirPath sp ds with
    | none => scanDirsList sp rel rest st
    | some dp =>
      match find_skills_in_dir dp.subdirs (rel ++ ds) st with
      | .error e => .error e
      | .ok st1 => scanDirsList sp rel rest st1

/-- Model of `discover_skills` (src/skill.rs lines 49-77).  `sub` is the optional
subpath in segments.  When the search path does not exist the source finds
no manifest, no priority directory, and swallows the `read_dir` failure of
the recursive fallback, yielding an empty result. -/
def discover_skills (base : Dir) (sub : Option (List String)) :
    Except ManifestErr (List Skill) :=
  let segs := sub.getD []
  match lookupDirPath base segs with
  | none => .ok []
  | some sp =>
    match try_parse_skill sp segs with
    | .error e => .error e
    | .ok (some sk) => .ok [sk]
    | .ok none =>
      match scanDirsList sp segs SEARCH_DIRS ([], []) with
      | .error e => .error e
      | .ok st =>
        if st.1.isEmpty then
          match find_skills_recursive 6 sp segs st with
          | .error e => .error e
          | .ok st1 => .ok st1.1
        else .ok st.1

/-! ## Candidate enumeration

The same traversal as discovery but without the `seen_names`
deduplication: it lists every valid skill in the fixed scan order,
duplicated manifest names included.  Discovery is proven equal to
first-occurrence deduplication of this enumeration (claim C8). -/

/-- Candidates of one priority directory, in child order. -/
def candidates_in_dir : List (String × Dir) → List String → Except ManifestErr (List Skill)
  | [], _ => .ok []
  | (n, d) :: rest, rel =>
    match try_parse_skill d (rel ++ [n]) with
    | .error e => .error e
    | .ok none => candidates_in_dir rest rel
    | .ok (some sk) => (candidates_in_dir rest rel).map (fun cs => sk :: cs)

/-- The recursive-walk candidates of a child list. -/
def walkChildrenC (step : Dir → List String → Except ManifestErr (List Skill)) :
    List (String × Dir) → List String → Except ManifestErr (List Skill)
  | [], _ => .ok []
  | (n, c) :: rest, rel =>
    if skipName n then walkChildrenC step rest rel
    else
      match step c (rel ++ [n]) with
      | .error e => .error e
      | .ok cs => (walkChildrenC step rest rel).map (fun cs1 => cs ++ cs1)

/-- Candidates of the bounded recursive descent. -/
def candidates_recursive : Nat → Dir → List String → Except ManifestErr (List Skill)
  | 0, _, _ => .ok []
  | fuel + 1, d, rel =>
    match try_parse_skill d rel with
    | .error e => .error e
    | .ok (some sk) => .ok [sk]
    | .ok none =>
      walkChildrenC (fun c r => candidates_recursive fuel c r) d.subdirs rel

/-- Candidates of the priority scan over `SEARCH_DIRS`. -/
def scanDirsListC (sp : Dir) (rel : List String) :
    List (List String) → Except ManifestErr (List Skill)
  | [] => .ok []
  | ds :: rest =>
    match lookupDirPath sp ds with
    | none => scanDirsListC sp rel rest
    | some dp =>
      match candidates_in_dir dp.subdirs (rel ++ ds) with
      | .error e => .error e
      | .ok cs => (scanDirsListC sp rel rest).map (fun cs1 => cs ++ cs1)

/-- The full candidate sequence of a `discover_skills` call: the
single-skill short-circuit, the priority scan, and — only when the
priority scan yields nothing — the bounded recursive descent. -/
def discover_candidates (base : Dir) (sub : Option (List String)) :
    Except ManifestErr (List Skill) :=
  let segs := sub.getD []
  match lookupDirPath base segs with
  | none => .ok []
  | some sp =>
    match try_parse_skill sp segs with
    | .error e => .error e
    | .ok (some sk) => .ok [sk]
    | .ok none =>
      match scanDirsListC sp segs SEARCH_DIRS with
      | .error e => .error e
      | .ok cs =>
        if cs.isEmpty then candidates_recursive 6 sp segs
        else .ok cs

/-- First-occurrence deduplication by manifest name. -/
def dedupFirst (cs : List Skill) : List Skill :=
  (cs.foldl addDedup ([], [])).1

/-! ## Install fan-out (src/cli/install.rs, `install_skill_to_agents` and
`copy_dir_recursive`) -/

/-- Filesystem failures of the copy model: copying a regular file onto an
existing directory, or creating a directory where a regular file sits. -/
inductive FsErr where
  | copyOntoDir
  | createDirOnFile
  | removeDirOnFile
deriving DecidableEq, Repr

/-- Update the first entry with key `k` (append when absent). -/
def upsert {α : Type} : List (String × α) → String → α → List (String × α)
  | [], k, v => [(k, v)]
  | (n, w) :: rest, k, v =>
    if n = k then (k, v) :: rest else (n, w) :: upsert rest k v

def emptyDir : Dir := .mk none [] []

/-- Copy one regular file into `dst` (the `fs::copy` arm of
src/cli/install.rs lines 150-153): fails when `dst` already has a
directory of that name, otherwise overwrites. -/
def copyFileInto (dst : Dir) (n : String) (content : String) : Except FsErr Dir :=
  if (lookupList dst.subdirs n).isSome then .error .copyOntoDir
  else if n = "SKILL.md" then .ok (.mk (some content) dst.files dst.subdirs)
  else .ok (.mk dst.manifest (upsert dst.files n content) dst.subdirs)

/-- Copy a list of regular files into `dst` in order. -/
def copyFilesList : List (String × String) → Dir → Except FsErr Dir
  | [], dst => .ok dst
  | (n, c) :: rest, dst =>
    match copyFileInto dst n c with
    | .error e => .error e
    | .ok dst1 => copyFilesList rest dst1

mutual
/-- Model of `copy_dir_recursive` (src/cli/install.rs lines 141-158) as a function
from the source tree and the current destination tree to the merged
destination: the destination is NOT cleared first, entries of the source
overwrite same-named files, and everything else in the destination stays.
The manifest file, the other regular files, and the subdirectories of the
source are processed in that order; the source enumerates them in
filesystem order, which only affects which error is reported first. -/
def copy_dir_recursive (src dst : Dir) : Except FsErr Dir :=
  match src with
  | .mk m fs sds =>
    match (match m with
           | some c => copyFileInto dst "SKILL.md" c
           | none => .ok dst) with
    | .error e => .error e
    | .ok dst1 =>
      match copyFilesList fs dst1 with
      | .error e => .error e
      | .ok dst2 => copySubdirsList sds dst2

/-- The recursive arm of `copy_dir_recursive`: each source subdirectory is
copied into the same-named destination subdirectory, created when absent
(`create_dir_all`), failing when a regular file of that name blocks it. -/
def copySubdirsList : List (String × Dir) → Dir → Except FsErr Dir
  | [], dst => .ok dst
  | (n, sub) :: rest, dst =>
    if (fileAt dst n).isSome then .error .createDirOnFile
    else
      match copy_dir_recursive sub ((lookupList dst.subdirs n).getD emptyDir) with
      | .error e => .error e
      | .ok sub1 =>
        copySubdirsList rest (.mk dst.manifest dst.files (upsert dst.subdirs n sub1))
end

/-- Model of `AGENTS` (src/cli/install.rs lines 11-16 and src/cli/remove.rs lines
8-13), skill directories as path segments. -/
def AGENTS : List (String × List String) :=
  [("claude-code", [".claude", "skills"]),
   ("opencode", [".opencode", "skills"]),
   ("cursor", [".cursor", "skills"]),
   ("codex", [".codex", "skills"])]

/-- Copy `src` to the directory at path `p` below `d`, creating missing
intermediate directories (the `create_dir_all` calls of
src/cli/install.rs lines 127-135) and failing when a regular file blocks
the path. -/
def installCopyAt (src : Dir) : Dir → List String → Except FsErr Dir
  | d, [] => copy_dir_recursive src d
  | d, n :: rest =>
    if (fileAt d n).isSome then .error .createDirOnFile
    else
      match installCopyAt src ((lookupList d.subdirs n).getD emptyDir) rest with
      | .error e => .error e
      | .ok sub1 => .ok (.mk d.manifest d.files (upsert d.subdirs n sub1))

/-- Model of `install_skill_to_agents` (src/cli/install.rs lines 123-139): copy the
skill tree to `<skills_dir>/<name>` for every agent, over the project
directory `cwd`. -/
def install_skill_to_agents (name : String) (skillTree : Dir) (cwd : Dir) :
    Except FsErr Dir :=
  AGENTS.foldlM (fun c ag => installCopyAt skillTree c (ag.2 ++ [name])) cwd

/-! ## Snapshot provider (src/git.rs, `ClonedRepo::clone` and `resolve_sha`)

Network and disk effects are oracles: a clone oracle maps a `GitSource` to
the checkout it would produce (or the failure), and an API oracle is the
outcome the GitHub commit-lookup request would have. -/

/-- A cloned repository (src/git.rs lines 141-145): its file tree and the
commit id at the checkout head.  The ephemeral temp directory is owned by
the value itself. -/
structure ClonedRepo where
  tree : Dir
  sha : String
deriving DecidableEq, Repr

/-- Errors of the git layer visible to the commands. -/
inductive GitErr where
  | cloneFailed
  | fetchCommitInfoFailed
  | jsonDecodeFailed
deriving DecidableEq, Repr

/-- The outcome the GitHub commits request would have: a transport failure
on `send()`, or a response with a success flag and — when the body decodes
as JSON — an optional string `sha` field. -/
inductive ApiOutcome where
  | sendError
  | response (isSuccess : Bool) (body : Option (Option String))
deriving DecidableEq, Repr

/-- The condition under which `resolve_sha` consults the GitHub API
(src/git.rs lines 200-201): decomposed owner and repo, and a github.com
URL. -/
def usesApi (src : GitSource) : Bool :=
  src.owner.isSome && src.repo.isSome && containsSub "github.com".data src.url.data

/-- Model of `resolve_sha` (src/git.rs lines 198-228).  The `?` on the `send()`
call propagates a transport error, and the `?` on `resp.json()` propagates
a body-decode error of a success response — neither falls back to cloning.
The fallback clone is taken on a non-success status, on a success response
whose `sha` field is absent or not a string, and for sources that do not
use the API at all. -/
def resolve_sha (src : GitSource) (api : ApiOutcome)
    (clone : Except GitErr ClonedRepo) : Except GitErr String :=
  if usesApi src then
    match api with
    | .sendError => .error .fetchCommitInfoFailed
    | .response true none => .error .jsonDecodeFailed
    | .response true (some (some sha)) => .ok sha
    | .response true (some none) => clone.map (fun c => c.sha)
    | .response false _ => clone.map (fun c => c.sha)
  else clone.map (fun c => c.sha)

/-! ## Stores (src/config.rs) -/

/-- A declared individual skill (src/config.rs lines 59-75).  The optional
subpath `path` is kept in segments, matching the discovery model. -/
structure SkillSpec where
  name : String
  source : String
  ref_ : Option String
  path : Option (List String)
deriving DecidableEq, Repr

/-- A declared marketplace (src/config.rs lines 42-57). -/
structure Marketplace where
  name : String
  source : String
  ref_ : Option String
  enabled : List String
deriving DecidableEq, Repr

/-- skills.json (src/config.rs lines 13-26); the schema string is fixed
and irrelevant to the claims. -/
structure SkillsConfig where
  marketplaces : List Marketplace
  skills : List SkillSpec
deriving DecidableEq, Repr

/-- A locked skill (src/config.rs lines 124-145). -/
structure LockedSkill where
  name : String
  source : String
  sha : String
  path : List String
  description : Option String
  marketplace : Option String
deriving DecidableEq, Repr

/-- skills-lock.json skills map (src/config.rs lines 78-94), modelled as an
association list; the claims only use lookup, insert and remove. -/
abbrev LockSkills := List (String × LockedSkill)

/-- Model of `HashMap::remove`: drop every binding of the key. -/
def removeKey {α : Type} (l : List (String × α)) (k : String) : List (String × α) :=
  l.filter (fun p => p.1 != k)

/-! ## Unchecked 8-byte slicing (`&sha[..8]`) -/

/-- utf-8 byte length of a string. -/
def byteLen (s : String) : Nat := (s.data.map Char.utf8Size).sum

/-- Take the first `n` utf-8 bytes of a character list; `none` when the
list is shorter than `n` bytes or `n` is not a character boundary. -/
def takeBytes : Nat → List Char → Option (List Char)
  | 0, _ => some []
  | _ + 1, [] => none
  | n + 1, c :: cs =>
    if c.utf8Size ≤ n + 1 then (takeBytes (n + 1 - c.utf8Size) cs).map (fun l => c :: l)
    else none

/-- Model of `&s[..8]`: `none` models the panic of byte slicing a string shorter
than 8 bytes (or slicing off a character boundary). -/
def slice8 (s : String) : Option String :=
  (takeBytes 8 s.data).map String.mk

/-! ## Commands (src/cli/install.rs, src/cli/update.rs, src/cli/remove.rs) -/

/-- Errors that abort a command. -/
inductive CmdErr where
  | git (e : GitErr)
  | manifest (e : ManifestErr)
  | skillNotFound
  | fs (e : FsErr)
deriving DecidableEq, Repr

/-- The result of one command step: success, a propagated error, or a
process panic (from unchecked slicing). -/
inductive StepResult (α : Type) where
  | ok (a : α)
  | error (e : CmdErr)
  | panic
deriving DecidableEq, Repr

/-- The location `install` clones for a declared skill (src/cli/install.rs
lines 37-46): parsed from the lock entry's stored source when a lock entry
exists, else from the declared source. -/
def install_pick_source (spec : SkillSpec) (lock : LockSkills) : GitSource :=
  match lookupList lock spec.name with
  | some locked => GitSource.parse locked.source
  | none => GitSource.parse spec.source

/-- One iteration of the per-skill install loop (src/cli/install.rs lines
33-73), over a clone oracle.  The `println!` at line 41 slices the locked
sha before anything else runs; the one at line 72 slices the resolved sha
after the fan-out copy. -/
def install_skill_step (spec : SkillSpec) (lock : LockSkills)
    (clone : GitSource → Except GitErr ClonedRepo) (cwd : Dir) :
    StepResult (LockSkills × Dir) :=
  if (match lookupList lock spec.name with
      | some l => (slice8 l.sha).isNone
      | none => false) then .panic
  else
    let gitSource := install_pick_source spec lock
    match clone gitSource with
    | .error e => .error (.git e)
    | .ok cloned =>
      match discover_skills cloned.tree spec.path with
      | .error e => .error (.manifest e)
      | .ok skills =>
        match skills.find? (fun s => s.metadata.name == spec.name) with
        | none => .error .skillNotFound
        | some skill =>
          let lockedSkill : LockedSkill :=
            { name := skill.metadata.name, source := gitSource.url, sha := cloned.sha,
              path := skill.relativePath, description := some skill.metadata.description,
              marketplace := none }
          let lock1 := upsert lock spec.name lockedSkill
          match install_skill_to_agents spec.name skill.tree cwd with
          | .error e => .error (.fs e)
          | .ok cwd1 =>
            match slice8 cloned.sha with
            | none => .panic
            | some _ => .ok (lock1, cwd1)

/-- One iteration of the per-skill update loop (src/cli/update.rs lines
23-66), over the API and clone oracles.  When the resolved sha equals the
locked one, line 38 slices the new sha; otherwise line 43 slices the
current sha (when present) and the new sha before re-cloning.  No
filesystem fan-out happens here. -/
def update_skill_step (spec : SkillSpec) (lock : LockSkills) (api : ApiOutcome)
    (clone : GitSource → Except GitErr ClonedRepo) : StepResult LockSkills :=
  let gitSource := GitSource.parse spec.source
  match resolve_sha gitSource api (clone gitSource) with
  | .error e => .error (.git e)
  | .ok newSha =>
    let currentSha := (lookupList lock spec.name).map (fun l => l.sha)
    if currentSha = some newSha then
      match slice8 newSha with
      | none => .panic
      | some _ => .ok lock
    else
      if (match currentSha with
          | some s => (slice8 s).isNone
          | none => false) then .panic
      else
        match slice8 newSha with
        | none => .panic
        | some _ =>
          match clone gitSource with
          | .error e => .error (.git e)
          | .ok cloned =>
            match discover_skills cloned.tree spec.path with
            | .error e => .error (.manifest e)
            | .ok skills =>
              match skills.find? (fun s => s.metadata.name == spec.name) with
              | none => .error .skillNotFound
              | some skill =>
                .ok (upsert lock spec.name
                  { name := skill.metadata.name, source := gitSource.url, sha := newSha,
                    path := skill.relativePath,
                    description := some skill.metadata.description, marketplace := none })

/-- Modify the first entry with key `k` in place (no-op when absent). -/
def modifyFirst {α : Type} : List (String × α) → String → (α → α) → List (String × α)
  | [], _, _ => []
  | (n, v) :: rest, k, f =>
    if n = k then (n, f v) :: rest else (n, v) :: modifyFirst rest k f

/-- Delete the entry at path `p` (the effect of `remove_dir_all`). -/
def deletePath : Dir → List String → Dir
  | d, [] => d
  | .mk m fs sds, [n] => .mk m fs (sds.filter (fun e => e.1 != n))
  | .mk m fs sds, n :: rest => .mk m fs (modifyFirst sds n (fun sub => deletePath sub rest))

/-- Model of `if skill_path.exists() { remove_dir_all(skill_path)? }`
(src/cli/remove.rs lines 53-56): deletes a directory, fails on a regular
file, skips a missing path. -/
def removeDirAll (t : Dir) (p : List String) : Except FsErr Dir :=
  match lookupDirPath t p with
  | some _ => .ok (deletePath t p)
  | none => if (lookupFileAt t p).isSome then .error .removeDirOnFile else .ok t

/-- The observable outcome of `remove`: the two stores as persisted on
disk when the command ends, the project tree, and whether the name was
found. -/
structure RemoveOutcome where
  config : SkillsConfig
  lock : LockSkills
  cwd : Dir
  found : Bool
deriving DecidableEq, Repr

/-- Model of `remove::run` (src/cli/remove.rs lines 15-66).  The name is stripped
from the in-memory config and lock first; `found` reflects only the config
skills and marketplace enabled lists.  When nothing was found the function
returns Ok early — before the filesystem cleanup loop and before either
store is saved, so the persisted stores are the ones loaded.  Otherwise the
cleanup loop runs and both stores are saved at the end. -/
def remove_run (name : String) (config : SkillsConfig) (lock : LockSkills)
    (cwd : Dir) : Except FsErr RemoveOutcome :=
  let config1 : SkillsConfig :=
    { marketplaces := config.marketplaces.map
        (fun m => { m with enabled := m.enabled.filter (fun n => n != name) }),
      skills := config.skills.filter (fun s => s.name != name) }
  let lock1 := removeKey lock name
  let found := config.skills.any (fun s => s.name == name)
    || config.marketplaces.any (fun m => m.enabled.any (fun n => n == name))
  if !found then
    .ok { config := config, lock := lock, cwd := cwd, found := false }
  else
    match AGENTS.foldlM (fun t ag => removeDirAll t (ag.2 ++ [name])) cwd with
    | .error e => .error e
    | .ok cwd1 => .ok { config := config1, lock := lock1, cwd := cwd1, found := true }

/-! ## Auxiliary predicates for the theorems -/

/-- The names a directory binds directly: the manifest file when present,
then regular files, then subdirectories. -/
def entryNames (d : Dir) : List String :=
  (match d.manifest with
   | some _ => ["SKILL.md"]
   | none => []) ++ d.files.map Prod.fst ++ d.subdirs.map Prod.fst

def nodupStr : List String → Bool
  | [] => true
  | x :: xs => !(xs.contains x) && nodupStr xs

mutual
/-- A directory tree a real filesystem can produce: at every level the
entry names are pairwise distinct and `SKILL.md` only ever appears through
the `manifest` field. -/
def wfDir : Dir → Bool
  | .mk m fs sds =>
    nodupStr (entryNames (.mk m fs sds)) && !((fs.map Prod.fst).contains "SKILL.md") &&
      wfSubdirs sds
def wfSubdirs : List (String × Dir) → Bool
  | [] => true
  | (_, d) :: rest => wfDir d && wfSubdirs rest
end

/-- Paths of the destination tree that the source tree of a copy does not
touch: either the head name is not bound in the source at all, or the
source descends into a same-named subdirectory and the rest of the path is
untouched there. -/
inductive FreePath : Dir → List String → Prop where
  | off (src : Dir) (n : String) (rest : List String) :
      ¬ n ∈ entryNames src → FreePath src (n :: rest)
  | deeper (src : Dir) (n : String) (rest : List String) (child : Dir) :
      lookupList src.subdirs n = some child → FreePath child rest →
      FreePath src (n :: rest)

def isErrorM (r : Except ManifestErr SkillMetadata) : Bool :=
  match r with
  | .error _ => true
  | .ok _ => false

/-- A directory whose child list contains a subdirectory with an invalid
manifest. -/
def hasInvalidChild (dp : Dir) : Bool :=
  dp.subdirs.any (fun p =>
    match p.2.manifest with
    | some c => isErrorM (parse_frontmatter c)
    | none => false)

/-- The recursive fallback walk, started at `d`, reaches a directory with
an invalid manifest along the path `p`: every intermediate directory has
no manifest, no path component is skipped, and the final directory's
manifest fails validation. -/
def reachesInvalid : Dir → List String → Bool
  | d, [] =>
    match d.manifest with
    | some c => isErrorM (parse_frontmatter c)
    | none => false
  | d, n :: rest =>
    d.manifest.isNone && !skipName n &&
      (match lookupList d.subdirs n with
       | some child => reachesInvalid child rest
       | none => false)

/-! ## Concrete values used by counterexamples and witnesses -/

def exManifest : String := "---\nname: pdf\ndescription: a pdf skill\n---\nbody"

def exMeta : SkillMetadata := { name := "pdf", description := "a pdf skill", extra := [] }

def exSkillDir : Dir := Dir.mk (some exManifest) [("new.txt", "new content")] []

def exSkill : Skill := { metadata := exMeta, relativePath := [], tree := exSkillDir }

def exSpec : SkillSpec :=
  { name := "pdf", source := "anthropics/skills", ref_ := none, path := none }

def exLocked : LockedSkill :=
  { name := "pdf", source := "https://github.com/other/fork.git",
    sha := "cafebabe12345678", path := [], description := none, marketplace := none }

def exLockedShort : LockedSkill :=
  { name := "pdf", source := "https://github.com/other/fork.git", sha := "abc",
    path := [], description := none, marketplace := none }

def exInstalledCwd : Dir :=
  Dir.mk none []
    [(".claude", Dir.mk none []
      [("skills", Dir.mk none []
        [("pdf", Dir.mk none [("stale.txt", "old")] [])])])]

def exRepo : ClonedRepo := { tree := Dir.mk none [] [], sha := "1234567890abcdef" }

def exGhSrc : GitSource := GitSource.parse "anthropics/skills"

def exNonApiSrc : GitSource := GitSource.parse "https://gitlab.com/a/b.git"

def exCloneOk : GitSource → Except GitErr ClonedRepo :=
  fun _ => .ok { tree := exSkillDir, sha := "cafebabe12345678" }

def exCloneShortSha : GitSource → Except GitErr ClonedRepo :=
  fun _ => .ok { tree := exSkillDir, sha := "abc" }

def exCloneReject : GitSource → Except GitErr ClonedRepo := fun gs =>
  if gs.url = "https://github.com/other/fork.git" then .error .cloneFailed
  else .ok { tree := exSkillDir, sha := "cafebabe12345678" }

def exBadDir : Dir := Dir.mk (some "name: x") [] []

def exPriorityBad : Dir :=
  Dir.mk none [] [("skills", Dir.mk none [] [("x", exBadDir)])]

/-- A tree whose priority directory exists but holds no skills, with the
invalid manifest reachable only through the recursive fallback. -/
def exRecurseBad : Dir :=
  Dir.mk none [] [("skills", Dir.mk none [] []), ("lib", exBadDir)]

def exDupTree : Dir :=
  Dir.mk none []
    [("skills", Dir.mk none []
      [("x", Dir.mk (some exManifest) [] []), ("y", Dir.mk (some exManifest) [] [])])]

/-- The survivor of discovery on `exDupTree`: the first of the two
same-named candidates in scan order. -/
def exDupSkill : Skill :=
  { metadata := exMeta, relativePath := ["skills", "x"],
    tree := Dir.mk (some exManifest) [] [] }

/-- A snapshot root that is itself a valid skill and has another valid
skill nested beneath it. -/
def exRootWithNested : Dir :=
  Dir.mk (some exManifest) [("new.txt", "new content")]
    [("skills", Dir.mk none []
      [("other", Dir.mk (some "---\nname: other\ndescription: other skill\n---") [] [])])]

def exRootSkill : Skill :=
  { metadata := exMeta, relativePath := [], tree := exRootWithNested }

/-- One agent's skills directory after installing the example skill. -/
def exAgentCopy : Dir :=
  Dir.mk none [] [("skills", Dir.mk none [] [("pdf", exSkillDir)])]

/-- The project tree produced by fanning the example skill out to all four
agents from an empty project directory. -/
def exFanoutCwd : Dir :=
  Dir.mk none []
    [(".claude", exAgentCopy), (".opencode", exAgentCopy),
     (".cursor", exAgentCopy), (".codex", exAgentCopy)]

/-- An existing `<name>/` copy holding a file the new skill tree lacks. -/
def exStaleDir : Dir := Dir.mk none [("stale.txt", "old")] []

/-- The result of copying the example skill tree over `exStaleDir`. -/
def exMergedDir : Dir :=
  Dir.mk (some exManifest) [("stale.txt", "old"), ("new.txt", "new content")] []

/-- The outcome of `remove_run "pdf"` on the example state that declares
and installs the skill. -/
def exRemoveOut : RemoveOutcome :=
  { config := { marketplaces := [], skills := [] }, lock := [],
    cwd := Dir.mk none [] [(".claude", Dir.mk none [] [("skills", Dir.mk none [] [])])],
    found := true }

/-! # Theorems

First the shared helper lemmas, then one theorem per claim (with its
counterexample and witness where applicable). -/

/-! ## Association-list lemmas -/

theorem lookupList_upsert_self {α : Type} (l : List (String × α)) (k : String) (v : α) :
    lookupList (upsert l k v) k = some v := by
  induction l with
  | nil => simp [upsert, lookupList]
  | cons hd tl ih =>
    obtain ⟨n, w⟩ := hd
    by_cases h : n = k
    · simp [upsert, h, lookupList]
    · simp [upsert, h, lookupList, ih]

theorem lookupList_upsert_ne {α : Type} (l : List (String × α)) (k a : String) (v : α)
    (h : a ≠ k) : lookupList (upsert l k v) a = lookupList l a := by
  induction l with
  | nil => simp [upsert, lookupList, Ne.symm h]
  | cons hd tl ih =>
    obtain ⟨n, w⟩ := hd
    by_cases hn : n = k
    · subst hn
      simp [upsert, lookupList, Ne.symm h]
    · by_cases ha : n = a
      · simp [upsert, hn, lookupList, ha, h]
      · simp [upsert, hn, lookupList, ha, ih]

theorem lookupList_mem {α : Type} {l : List (String × α)} {k : String} {v : α}
    (h : lookupList l k = some v) : (k, v) ∈ l := by
  induction l with
  | nil => simp [lookupList] at h
  | cons hd tl ih =>
    obtain ⟨n, w⟩ := hd
    by_cases hn : n = k
    · subst hn
      simp [lookupList] at h
      simp [h]
    · simp [lookupList, hn] at h
      exact List.mem_cons_of_mem _ (ih h)

theorem lookupList_filterKey {α : Type} (l : List (String × α)) (n a : String) :
    lookupList (l.filter (fun e => e.1 != n)) a =
      if a = n then none else lookupList l a := by
  induction l with
  | nil => simp [lookupList]
  | cons hd tl ih =>
    obtain ⟨m, w⟩ := hd
    by_cases hm : m = n
    · subst hm
      by_cases ha : a = m
      · subst ha
        simp [List.filter_cons, ih]
      · simp [List.filter_cons, ih, ha, lookupList, Ne.symm ha]
    · by_cases ha : m = a
      · subst ha
        simp [List.filter_cons, bne_iff_ne, hm, lookupList]
      · simp [List.filter_cons, bne_iff_ne, hm, lookupList, ha, ih]

theorem lookupList_removeKey {α : Type} (l : List (String × α)) (k : String) :
    lookupList (removeKey l k) k = none := by
  simp [removeKey, lookupList_filterKey]

theorem lookupList_modifyFirst {α : Type} (l : List (String × α)) (k a : String)
    (f : α → α) :
    lookupList (modifyFirst l k f) a =
      if a = k then (lookupList l k).map f else lookupList l a := by
  induction l with
  | nil => simp [modifyFirst, lookupList]
  | cons hd tl ih =>
    obtain ⟨n, w⟩ := hd
    by_cases hn : n = k
    · subst hn
      by_cases ha : a = n
      · subst ha
        simp [modifyFirst, lookupList]
      · simp [modifyFirst, lookupList, ha, Ne.symm ha]
    · by_cases ha : n = a
      · have hak : ¬ a = k := fun h => hn (ha.trans h)
        simp [modifyFirst, hn, lookupList, ha, hak]
      · simp [modifyFirst, hn, lookupList, ha, ih]

@[simp] theorem except_map_ok {ε α β : Type} (f : α → β) (a : α) :
    Except.map f (Except.ok a : Except ε α) = Except.ok (f a) := rfl

@[simp] theorem except_map_error {ε α β : Type} (f : α → β) (e : ε) :
    Except.map f (Except.error e : Except ε α) = Except.error e := rfl

/-! ## C9 — concrete parses -/

/-- C9: `parse("anthropics/skills")` yields the remote address
`https://github.com/anthropics/skills.git` with owner `anthropics`, repo
`skills`, no ref and no subpath; and parsing a github tree URL ending in
`/tree/main/skills/pdf` yields the same owner/repo decomposition with ref
`main` and subpath `skills/pdf`. -/
theorem parse_concrete_examples :
    GitSource.parse "anthropics/skills" =
      { url := "https://github.com/anthropics/skills.git", owner := some "anthropics",
        repo := some "skills", ref_ := none, subpath := none }
  ∧ GitSource.parse "https://github.com/anthropics/skills/tree/main/skills/pdf" =
      { url := "https://github.com/anthropics/skills.git", owner := some "anthropics",
        repo := some "skills", ref_ := some "main", subpath := some "skills/pdf" } :=
  ⟨by decide, by decide⟩

/-! ## C2 — resolve_sha fallback -/

/-- C2 counterexample: on a transport error of the API request
(`send()` failing), `resolve_sha` propagates the error instead of falling
back to the clone and returning its commit id, even when the clone would
succeed. -/
theorem resolve_sha_net_error_is_fatal :
    resolve_sha exGhSrc .sendError (.ok exRepo) = .error .fetchCommitInfoFailed
  ∧ resolve_sha exGhSrc .sendError (.ok exRepo) ≠ .ok exRepo.sha :=
  ⟨by decide, by decide⟩

/-- C2 amended: `resolve_sha` falls back to the clone exactly when the
source does not use the API, when the response status is not a success, or
when a decoded success response lacks a string commit-id field; a success
response with the field returns it directly; but a transport error on the
request itself is propagated as an error with no fallback (a body of a
success response that fails to decode likewise errors). -/
theorem resolve_sha_fallback_spec :
    (∀ src api clone, usesApi src = false →
       resolve_sha src api clone = clone.map (fun c => c.sha))
  ∧ (∀ src body clone, usesApi src = true →
       resolve_sha src (.response false body) clone = clone.map (fun c => c.sha))
  ∧ (∀ src clone, usesApi src = true →
       resolve_sha src (.response true (some none)) clone = clone.map (fun c => c.sha))
  ∧ (∀ src sha clone, usesApi src = true →
       resolve_sha src (.response true (some (some sha))) clone = .ok sha)
  ∧ (∀ src clone, usesApi src = true →
       resolve_sha src .sendError clone = .error .fetchCommitInfoFailed) := by
  refine ⟨?_, ?_, ?_, ?_, ?_⟩
  · intro src api clone h
    simp [resolve_sha, h]
  · intro src body clone h
    simp [resolve_sha, h]
  · intro src clone h
    simp [resolve_sha, h]
  · intro src sha clone h
    simp [resolve_sha, h]
  · intro src clone h
    simp [resolve_sha, h]

/-- Witness for the amended C2 at concrete sources, responses and clones. -/
theorem resolve_sha_fallback_spec_witness :
    resolve_sha exNonApiSrc .sendError (.ok exRepo) = .ok exRepo.sha
  ∧ resolve_sha exGhSrc (.response false none) (.ok exRepo) = .ok exRepo.sha
  ∧ resolve_sha exGhSrc (.response true (some none)) (.ok exRepo) = .ok exRepo.sha
  ∧ resolve_sha exGhSrc (.response true (some (some "beefcafe"))) (.ok exRepo) = .ok "beefcafe"
  ∧ resolve_sha exGhSrc .sendError (.ok exRepo) = .error .fetchCommitInfoFailed :=
  ⟨resolve_sha_fallback_spec.1 exNonApiSrc .sendError (.ok exRepo) (by decide),
   resolve_sha_fallback_spec.2.1 exGhSrc none (.ok exRepo) (by decide),
   resolve_sha_fallback_spec.2.2.1 exGhSrc (.ok exRepo) (by decide),
   resolve_sha_fallback_spec.2.2.2.1 exGhSrc "beefcafe" (.ok exRepo) (by decide),
   resolve_sha_fallback_spec.2.2.2.2 exGhSrc (.ok exRepo) (by decide)⟩

/-! ## C1 — install consults the lock for the fetched location -/

/-- C1 counterexample: with a lock entry whose stored source differs from
the declared one, the cloned location is the lock entry's source, not one
derived from the declared source — a clone oracle failing only on the lock
entry's URL makes the whole step fail. -/
theorem install_fetches_lock_source_cex :
    install_skill_step exSpec [("pdf", exLocked)] exCloneReject emptyDir =
      .error (.git .cloneFailed)
  ∧ install_pick_source exSpec [("pdf", exLocked)] ≠ GitSource.parse exSpec.source
  ∧ install_pick_source exSpec [("pdf", exLocked)] = GitSource.parse exLocked.source :=
  ⟨by decide, by decide, by decide⟩

/-- C1 amended: the location install fetches for a declared entry is
parsed from the entry's declared source only when no Resolved (lock) entry
exists; when a lock entry exists the location is parsed from that entry's
stored source URL, so the Resolved store IS consulted to pick the fetch
location.  The step consults the clone oracle only at that picked
location. -/
theorem install_pick_source_spec :
    (∀ spec lock, lookupList lock spec.name = none →
       install_pick_source spec lock = GitSource.parse spec.source)
  ∧ (∀ spec lock l, lookupList lock spec.name = some l →
       install_pick_source spec lock = GitSource.parse l.source)
  ∧ (∀ spec lock cl1 cl2 cwd,
       cl1 (install_pick_source spec lock) = cl2 (install_pick_source spec lock) →
       install_skill_step spec lock cl1 cwd = install_skill_step spec lock cl2 cwd) := by
  refine ⟨?_, ?_, ?_⟩
  · intro spec lock h
    simp [install_pick_source, h]
  · intro spec lock l h
    simp [install_pick_source, h]
  · intro spec lock cl1 cl2 cwd h
    simp only [install_skill_step, h]

/-- Witness for the amended C1 at a concrete entry, lock and oracles. -/
theorem install_pick_source_spec_witness :
    install_pick_source exSpec [] = GitSource.parse exSpec.source
  ∧ install_pick_source exSpec [("pdf", exLocked)] = GitSource.parse exLocked.source
  ∧ install_skill_step exSpec [("pdf", exLocked)] exCloneOk emptyDir =
      install_skill_step exSpec [("pdf", exLocked)] exCloneOk emptyDir :=
  ⟨install_pick_source_spec.1 exSpec [] (by decide),
   install_pick_source_spec.2.1 exSpec [("pdf", exLocked)] exLocked (by decide),
   install_pick_source_spec.2.2 exSpec [("pdf", exLocked)] exCloneOk exCloneOk emptyDir rfl⟩

/-! ## C4 — remove on an unknown name -/

/-- C4 counterexample: for a name absent from the declared skills, every
marketplace enabled set and the lock, `remove` reports the non-fatal
not-found outcome but does NOT perform the filesystem cleanup: the
`pdf/` subdirectory present in the `.claude` install target survives. -/
theorem remove_not_found_skips_cleanup_cex :
    remove_run "pdf" { marketplaces := [], skills := [] } [] exInstalledCwd =
      .ok { config := { marketplaces := [], skills := [] }, lock := [],
            cwd := exInstalledCwd, found := false }
  ∧ lookupDirPath exInstalledCwd [".claude", "skills", "pdf"] ≠ none :=
  ⟨by decide, by decide⟩

/-- C4 amended: for a name absent from the declared skills and from every
marketplace enabled set, `remove` returns the non-fatal not-found outcome
and performs no filesystem cleanup at all — install targets and both
persisted stores are left exactly as they were. -/
theorem remove_not_found_no_cleanup :
    ∀ name config lock cwd,
      (∀ s, s ∈ config.skills → s.name ≠ name) →
      (∀ m, m ∈ config.marketplaces → ¬ name ∈ m.enabled) →
      remove_run name config lock cwd =
        .ok { config := config, lock := lock, cwd := cwd, found := false } := by
  intro name config lock cwd h1 h2
  have hs : config.skills.any (fun s => s.name == name) = false := by
    rw [List.any_eq_false]
    intro s hsm
    simp [h1 s hsm]
  have hm : config.marketplaces.any (fun m => m.enabled.any (fun n => n == name)) = false := by
    simp only [List.any_eq_false, List.any_eq_true, beq_iff_eq, not_exists, not_and]
    intro m hmm n hn he
    exact (h2 m hmm) (he ▸ hn)
  simp [remove_run, hs, hm]

/-- Witness for the amended C4: empty declarations, a lock without the
name, and an install target still holding a `pdf/` copy. -/
theorem remove_not_found_no_cleanup_witness :
    remove_run "pdf" { marketplaces := [], skills := [] } [("other", exLocked)] exInstalledCwd =
      .ok { config := { marketplaces := [], skills := [] }, lock := [("other", exLocked)],
            cwd := exInstalledCwd, found := false } :=
  remove_not_found_no_cleanup "pdf" { marketplaces := [], skills := [] }
    [("other", exLocked)] exInstalledCwd (by simp) (by simp)

/-! ## C10 — unchecked 8-byte sha slicing -/

theorem takeBytes_eq_none_of_short (cs : List Char) :
    ∀ n, (cs.map Char.utf8Size).sum < n → takeBytes n cs = none := by
  induction cs with
  | nil =>
    intro n h
    cases n with
    | zero => omega
    | succ m => rfl
  | cons c cs ih =>
    intro n h
    cases n with
    | zero => omega
    | succ m =>
      by_cases hsz : c.utf8Size ≤ m + 1
      · have h2 : (cs.map Char.utf8Size).sum < m + 1 - c.utf8Size := by
          simp only [List.map_cons, List.sum_cons] at h
          omega
        simp [takeBytes, hsz, ih _ h2]
      · simp [takeBytes, hsz]

theorem slice8_eq_none_of_short (s : String) (h : byteLen s < 8) : slice8 s = none := by
  simp [slice8, takeBytes_eq_none_of_short s.data 8 (by simpa [byteLen] using h)]

/-- C10: both `install` and `update` display commit ids by unchecked byte
slicing `&sha[..8]`: whenever the relevant commit-id string is shorter
than 8 bytes the step panics instead of returning an error — for install
with a short locked sha (before anything else runs) and with a short
resolved sha (after the fan-out); for update with a short locked sha and
with a short freshly-resolved sha. -/
theorem sha_slice_panics :
    (∀ spec lock clone cwd l, lookupList lock spec.name = some l → byteLen l.sha < 8 →
       install_skill_step spec lock clone cwd = .panic)
  ∧ (∀ spec lock api clone l newSha, lookupList lock spec.name = some l → byteLen l.sha < 8 →
       resolve_sha (GitSource.parse spec.source) api (clone (GitSource.parse spec.source)) =
         .ok newSha →
       update_skill_step spec lock api clone = .panic)
  ∧ (∀ spec lock api clone newSha, lookupList lock spec.name = none →
       resolve_sha (GitSource.parse spec.source) api (clone (GitSource.parse spec.source)) =
         .ok newSha →
       byteLen newSha < 8 →
       update_skill_step spec lock api clone = .panic)
  ∧ (∀ spec lock clone cwd cloned skills skill cwd1, lookupList lock spec.name = none →
       clone (install_pick_source spec lock) = .ok cloned → byteLen cloned.sha < 8 →
       discover_skills cloned.tree spec.path = .ok skills →
       skills.find? (fun s => s.metadata.name == spec.name) = some skill →
       install_skill_to_agents spec.name skill.tree cwd = .ok cwd1 →
       install_skill_step spec lock clone cwd = .panic) := by
  refine ⟨?_, ?_, ?_, ?_⟩
  · intro spec lock clone cwd l h1 h2
    simp [install_skill_step, h1, slice8_eq_none_of_short _ h2]
  · intro spec lock api clone l newSha h1 h2 h3
    by_cases heq : l.sha = newSha
    · simp [update_skill_step, h3, h1, heq, slice8_eq_none_of_short _ (heq ▸ h2)]
    · simp [update_skill_step, h3, h1, heq, slice8_eq_none_of_short _ h2]
  · intro spec lock api clone newSha h1 h2 h3
    simp [update_skill_step, h2, h1, slice8_eq_none_of_short _ h3]
  · intro spec lock clone cwd cloned skills skill cwd1 h1 h2 h3 h4 h5 h6
    simp [install_skill_step, h1, h2, h3, h4, h5, h6, slice8_eq_none_of_short _ h3]

/-- Witness for C10 at concrete states: a hand-shortened locked sha panics
install and update, and a short resolved sha panics both paths. -/
theorem sha_slice_panics_witness :
    install_skill_step exSpec [("pdf", exLockedShort)] exCloneOk emptyDir = .panic
  ∧ update_skill_step exSpec [("pdf", exLockedShort)]
      (.response true (some (some "abc"))) exCloneOk = .panic
  ∧ update_skill_step exSpec [] (.response true (some (some "abc"))) exCloneOk = .panic
  ∧ install_skill_step exSpec [] exCloneShortSha emptyDir = .panic :=
  ⟨sha_slice_panics.1 exSpec [("pdf", exLockedShort)] exCloneOk emptyDir exLockedShort
      (by decide) (by decide),
   sha_slice_panics.2.1 exSpec [("pdf", exLockedShort)]
      (.response true (some (some "abc"))) exCloneOk exLockedShort "abc"
      (by decide) (by decide) (by decide),
   sha_slice_panics.2.2.1 exSpec [] (.response true (some (some "abc"))) exCloneOk "abc"
      (by decide) (by decide) (by decide),
   sha_slice_panics.2.2.2 exSpec [] exCloneShortSha emptyDir
      { tree := exSkillDir, sha := "abc" } [exSkill] exSkill exFanoutCwd
      (by decide) (by decide) (by decide) (by decide) (by decide) (by decide)⟩

/-! ## C7 — single-skill short-circuit -/

/-- C7: when the effective root (snapshot root joined with the optional
subpath) is itself a valid skill, `discover_skills` returns exactly that
one skill, whatever else is nested beneath it. -/
theorem discover_single_skill_short_circuit :
    ∀ base sub sp sk, lookupDirPath base (sub.getD []) = some sp →
      try_parse_skill sp (sub.getD []) = .ok (some sk) →
      discover_skills base sub = .ok [sk] := by
  intro base sub sp sk h1 h2
  simp [discover_skills, h1, h2]

/-- Witness for C7 on a root that is a skill with another valid skill
nested below it. -/
theorem discover_single_skill_short_circuit_witness :
    discover_skills exRootWithNested none = .ok [exRootSkill] :=
  discover_single_skill_short_circuit exRootWithNested none exRootWithNested exRootSkill
    (by decide) (by decide)

/-! ## C3 — totality of remove -/

@[simp] theorem Dir.subdirs_mk (m : Option String) (fs : List (String × String))
    (sds : List (String × Dir)) : (Dir.mk m fs sds).subdirs = sds := rfl

@[simp] theorem Dir.files_mk (m : Option String) (fs : List (String × String))
    (sds : List (String × Dir)) : (Dir.mk m fs sds).files = fs := rfl

@[simp] theorem Dir.manifest_mk (m : Option String) (fs : List (String × String))
    (sds : List (String × Dir)) : (Dir.mk m fs sds).manifest = m := rfl

theorem lookupDirPath_deletePath :
    ∀ (p : List String) (t : Dir), p ≠ [] → lookupDirPath (deletePath t p) p = none := by
  intro p
  induction p with
  | nil => intro t h; exact absurd rfl h
  | cons n rest ih =>
    intro t _
    obtain ⟨m, fs, sds⟩ := t
    cases rest with
    | nil => simp [deletePath, lookupDirPath, lookupList_filterKey]
    | cons r2 rrest =>
      simp only [deletePath, lookupDirPath, Dir.subdirs_mk, lookupList_modifyFirst, if_pos rfl]
      cases hl : lookupList sds n with
      | none => simp
      | some s => exact ih s (by simp)

theorem lookupDirPath_deletePath_none :
    ∀ (p : List String) (t : Dir) (q : List String),
      lookupDirPath t q = none → lookupDirPath (deletePath t p) q = none := by
  intro p
  induction p with
  | nil => intro t q h; simpa [deletePath] using h
  | cons n rest ih =>
    intro t q h
    obtain ⟨m, fs, sds⟩ := t
    cases q with
    | nil => simp [lookupDirPath] at h
    | cons a q2 =>
      simp only [lookupDirPath, Dir.subdirs_mk] at h
      cases rest with
      | nil =>
        simp only [deletePath, lookupDirPath, Dir.subdirs_mk, lookupList_filterKey]
        by_cases ha : a = n
        · simp [ha]
        · simp only [if_neg ha]
          cases hl : lookupList sds a with
          | none => simp
          | some s =>
            rw [hl] at h
            exact h
      | cons r2 rrest =>
        simp only [deletePath, lookupDirPath, Dir.subdirs_mk, lookupList_modifyFirst]
        by_cases ha : a = n
        · subst ha
          cases hl : lookupList sds a with
          | none => simp
          | some s =>
            rw [hl] at h
            simp only [if_pos rfl, hl, Option.map_some]
            exact ih s q2 h
        · simp only [if_neg ha]
          cases hl : lookupList sds a with
          | none => simp
          | some s =>
            rw [hl] at h
            exact h

theorem removeDirAll_lookup_self :
    ∀ (t : Dir) (p : List String) (t1 : Dir), p ≠ [] →
      removeDirAll t p = .ok t1 → lookupDirPath t1 p = none := by
  intro t p t1 hp h
  cases hl : lookupDirPath t p with
  | some d =>
    simp only [removeDirAll, hl, Except.ok.injEq] at h
    rw [← h]
    exact lookupDirPath_deletePath p t hp
  | none =>
    simp only [removeDirAll, hl] at h
    by_cases hf : (lookupFileAt t p).isSome = true
    · rw [if_pos hf] at h
      cases h
    · rw [if_neg hf] at h
      simp only [Except.ok.injEq] at h
      rw [← h]
      exact hl

theorem removeDirAll_lookup_none :
    ∀ (t : Dir) (p q : List String) (t1 : Dir),
      removeDirAll t p = .ok t1 → lookupDirPath t q = none →
      lookupDirPath t1 q = none := by
  intro t p q t1 h hq
  cases hl : lookupDirPath t p with
  | some d =>
    simp only [removeDirAll, hl, Except.ok.injEq] at h
    rw [← h]
    exact lookupDirPath_deletePath_none p t q hq
  | none =>
    simp only [removeDirAll, hl] at h
    by_cases hf : (lookupFileAt t p).isSome = true
    · rw [if_pos hf] at h
      cases h
    · rw [if_neg hf] at h
      simp only [Except.ok.injEq] at h
      rw [← h]
      exact hq

theorem removeFold_lookup_none (name : String) :
    ∀ (ags : List (String × List String)) (t t1 : Dir) (q : List String),
      ags.foldlM (fun t ag => removeDirAll t (ag.2 ++ [name])) t = .ok t1 →
      lookupDirPath t q = none → lookupDirPath t1 q = none := by
  intro ags
  induction ags with
  | nil =>
    intro t t1 q h hq
    have h2 : (Except.ok t : Except FsErr Dir) = .ok t1 := h
    simp only [Except.ok.injEq] at h2
    rw [← h2]
    exact hq
  | cons a rest ih =>
    intro t t1 q h hq
    rw [List.foldlM_cons] at h
    cases ha : removeDirAll t (a.2 ++ [name]) with
    | error e =>
      rw [ha] at h
      exact Except.noConfusion (h : (Except.error e : Except FsErr Dir) = .ok t1)
    | ok t2 =>
      rw [ha] at h
      have h3 : rest.foldlM (fun t ag => removeDirAll t (ag.2 ++ [name])) t2 = .ok t1 := h
      exact ih t2 t1 q h3 (removeDirAll_lookup_none t (a.2 ++ [name]) q t2 ha hq)

theorem removeFold_lookup_all (name : String) :
    ∀ (ags : List (String × List String)) (t t1 : Dir),
      ags.foldlM (fun t ag => removeDirAll t (ag.2 ++ [name])) t = .ok t1 →
      ∀ ag, ag ∈ ags → lookupDirPath t1 (ag.2 ++ [name]) = none := by
  intro ags
  induction ags with
  | nil => intro t t1 _ ag hag; simp at hag
  | cons a rest ih =>
    intro t t1 h ag hag
    rw [List.foldlM_cons] at h
    cases ha : removeDirAll t (a.2 ++ [name]) with
    | error e =>
      rw [ha] at h
      exact Except.noConfusion (h : (Except.error e : Except FsErr Dir) = .ok t1)
    | ok t2 =>
      rw [ha] at h
      have h3 : rest.foldlM (fun t ag => removeDirAll t (ag.2 ++ [name])) t2 = .ok t1 := h
      rcases List.mem_cons.mp hag with rfl | hag2
      · exact removeFold_lookup_none name rest t2 t1 (ag.2 ++ [name]) h3
          (removeDirAll_lookup_self t (ag.2 ++ [name]) t2 (by simp) ha)
      · exact ih t2 t1 h3 ag hag2

/-- C3 counterexample: a name present only in the lock (the persisted
Resolved store) and in an install target is NOT removed — `remove`
completes with the non-fatal not-found outcome, the lock entry survives
as persisted, and the `pdf/` copy stays on disk. -/
theorem remove_misses_lock_and_fs_cex :
    remove_run "pdf" { marketplaces := [], skills := [] } [("pdf", exLocked)] exInstalledCwd =
      .ok { config := { marketplaces := [], skills := [] }, lock := [("pdf", exLocked)],
            cwd := exInstalledCwd, found := false }
  ∧ lookupList [("pdf", exLocked)] "pdf" = some exLocked
  ∧ lookupDirPath exInstalledCwd [".claude", "skills", "pdf"] ≠ none :=
  ⟨by decide, by decide, by decide⟩

/-- C3 amended: when the name was declared (in the config skills or in
some marketplace's enabled set), a successful `remove` leaves it absent
from the persisted declared skills, from every marketplace's enabled set,
from the persisted lock, and from every install target's directory
listing.  (When the name was in none of those, remove returns early and
removes nothing.) -/
theorem remove_total_when_found :
    ∀ name config lock cwd out,
      remove_run name config lock cwd = .ok out →
      (config.skills.any (fun s => s.name == name)
        || config.marketplaces.any (fun m => m.enabled.any (fun n => n == name))) = true →
      (∀ s, s ∈ out.config.skills → s.name ≠ name)
      ∧ (∀ m, m ∈ out.config.marketplaces → ¬ name ∈ m.enabled)
      ∧ lookupList out.lock name = none
      ∧ (∀ ag, ag ∈ AGENTS → lookupDirPath out.cwd (ag.2 ++ [name]) = none) := by
  intro name config lock cwd out hrun hfound
  simp only [remove_run, hfound, Bool.not_true, Bool.false_eq_true, if_neg] at hrun
  cases hf : AGENTS.foldlM (fun t ag => removeDirAll t (ag.2 ++ [name])) cwd with
  | error e => rw [hf] at hrun; cases hrun
  | ok cwd1 =>
    rw [hf] at hrun
    injection hrun with hout
    subst hout
    refine ⟨?_, ?_, ?_, ?_⟩
    · intro s hs
      rw [List.mem_filter] at hs
      simpa [bne_iff_ne] using hs.2
    · intro m hm
      rw [List.mem_map] at hm
      obtain ⟨m0, _, rfl⟩ := hm
      simp [List.mem_filter]
    · exact lookupList_removeKey lock name
    · exact removeFold_lookup_all name AGENTS cwd cwd1 hf

/-- Witness for the amended C3 on a concrete state where the skill is
declared, locked and installed. -/
theorem remove_total_when_found_witness :
    (∀ s, s ∈ exRemoveOut.config.skills → s.name ≠ "pdf")
  ∧ (∀ m, m ∈ exRemoveOut.config.marketplaces → ¬ "pdf" ∈ m.enabled)
  ∧ lookupList exRemoveOut.lock "pdf" = none
  ∧ (∀ ag, ag ∈ AGENTS → lookupDirPath exRemoveOut.cwd (ag.2 ++ ["pdf"]) = none) :=
  remove_total_when_found "pdf" { marketplaces := [], skills := [exSpec] }
    [("pdf", exLocked)] exInstalledCwd exRemoveOut (by decide) (by decide)

/-! ## C6 — strict abort on invalid manifests -/

theorem find_skills_in_dir_err :
    ∀ (cs : List (String × Dir)) (rel : List String) (st : DiscState),
      (∃ p, p ∈ cs ∧ ∃ c e, p.2.manifest = some c ∧ parse_frontmatter c = .error e) →
      ∃ e2, find_skills_in_dir cs rel st = .error e2 := by
  intro cs
  induction cs with
  | nil =>
    intro rel st h
    obtain ⟨p, hp, _⟩ := h
    simp at hp
  | cons hd tl ih =>
    intro rel st h
    obtain ⟨p, hp, c, e, hman, herr⟩ := h
    obtain ⟨n, d⟩ := hd
    cases htp : try_parse_skill d (rel ++ [n]) with
    | error e3 => exact ⟨e3, by simp [find_skills_in_dir, htp]⟩
    | ok r =>
      rcases List.mem_cons.mp hp with rfl | hp2
      · exfalso
        simp only [try_parse_skill, hman, herr] at htp
        cases htp
      · obtain ⟨e2, h2⟩ := ih rel
          (match r with
           | none => st
           | some sk => addDedup st sk) ⟨p, hp2, c, e, hman, herr⟩
        cases r with
        | none => exact ⟨e2, by simpa [find_skills_in_dir, htp] using h2⟩
        | some sk => exact ⟨e2, by simpa [find_skills_in_dir, htp] using h2⟩

theorem scanDirsList_err :
    ∀ (dirs : List (List String)) (sp : Dir) (rel : List String) (st : DiscState),
      (∃ ds, ds ∈ dirs ∧ ∃ dp, lookupDirPath sp ds = some dp ∧
        ∃ p, p ∈ dp.subdirs ∧ ∃ c e, p.2.manifest = some c ∧
          parse_frontmatter c = .error e) →
      ∃ e2, scanDirsList sp rel dirs st = .error e2 := by
  intro dirs
  induction dirs with
  | nil =>
    intro sp rel st h
    obtain ⟨ds, hds, _⟩ := h
    simp at hds
  | cons ds0 tl ih =>
    intro sp rel st h
    obtain ⟨ds, hds, dp, hdp, hbad⟩ := h
    cases hl : lookupDirPath sp ds0 with
    | none =>
      rcases List.mem_cons.mp hds with rfl | hds2
      · rw [hl] at hdp; cases hdp
      · obtain ⟨e2, h2⟩ := ih sp rel st ⟨ds, hds2, dp, hdp, hbad⟩
        exact ⟨e2, by simpa [scanDirsList, hl] using h2⟩
    | some dp0 =>
      cases hfd : find_skills_in_dir dp0.subdirs (rel ++ ds0) st with
      | error e3 => exact ⟨e3, by simp [scanDirsList, hl, hfd]⟩
      | ok st1 =>
        rcases List.mem_cons.mp hds with rfl | hds2
        · exfalso
          rw [hl] at hdp
          injection hdp with hdp2
          subst hdp2
          obtain ⟨e2, h2⟩ := find_skills_in_dir_err dp0.subdirs (rel ++ ds) st hbad
          rw [hfd] at h2
          cases h2
        · obtain ⟨e2, h2⟩ := ih sp rel st1 ⟨ds, hds2, dp, hdp, hbad⟩
          exact ⟨e2, by simpa [scanDirsList, hl, hfd] using h2⟩

theorem scanDirsList_missing :
    ∀ (dirs : List (List String)) (sp : Dir) (rel : List String) (st : DiscState),
      (∀ ds, ds ∈ dirs → lookupDirPath sp ds = none) →
      scanDirsList sp rel dirs st = .ok st := by
  intro dirs
  induction dirs with
  | nil => intro sp rel st _; rfl
  | cons ds0 tl ih =>
    intro sp rel st h
    have h0 := h ds0 (List.mem_cons_self ds0 tl)
    simp [scanDirsList, h0, ih sp rel st (fun ds hds => h ds (List.mem_cons_of_mem _ hds))]

theorem walkChildren_err :
    ∀ (step : Dir → List String → DiscState → Except ManifestErr DiscState)
      (cs : List (String × Dir)) (rel : List String),
      (∃ p, p ∈ cs ∧ skipName p.1 = false ∧
        ∀ st, ∃ e, step p.2 (rel ++ [p.1]) st = .error e) →
      ∀ st, ∃ e2, walkChildren step cs rel st = .error e2 := by
  intro step cs
  induction cs with
  | nil =>
    intro rel h st
    obtain ⟨p, hp, _⟩ := h
    simp at hp
  | cons hd tl ih =>
    intro rel h st
    obtain ⟨p, hp, hskip, hstep⟩ := h
    obtain ⟨n0, c0⟩ := hd
    by_cases hsk : skipName n0
    · rcases List.mem_cons.mp hp with rfl | hp2
      · rw [hskip] at hsk; cases hsk
      · obtain ⟨e2, h2⟩ := ih rel ⟨p, hp2, hskip, hstep⟩ st
        exact ⟨e2, by simpa [walkChildren, hsk] using h2⟩
    · cases hst : step c0 (rel ++ [n0]) st with
      | error e3 => exact ⟨e3, by simp [walkChildren, hsk, hst]⟩
      | ok st1 =>
        rcases List.mem_cons.mp hp with rfl | hp2
        · exfalso
          obtain ⟨e4, h4⟩ := hstep st
          rw [hst] at h4
          cases h4
        · obtain ⟨e2, h2⟩ := ih rel ⟨p, hp2, hskip, hstep⟩ st1
          exact ⟨e2, by simpa [walkChildren, hsk, hst] using h2⟩

theorem find_skills_recursive_err :
    ∀ (ip : List String) (fuel : Nat) (d : Dir) (rel : List String) (st : DiscState),
      ip.length < fuel → reachesInvalid d ip = true →
      ∃ e, find_skills_recursive fuel d rel st = .error e := by
  intro ip
  induction ip with
  | nil =>
    intro fuel d rel st hf hr
    cases fuel with
    | zero => omega
    | succ f =>
      cases hman : d.manifest with
      | none => simp only [reachesInvalid, hman] at hr; cases hr
      | some c =>
        simp only [reachesInvalid, hman] at hr
        cases herr : parse_frontmatter c with
        | ok md =>
          rw [herr] at hr
          simp [isErrorM] at hr
        | error e =>
          exact ⟨e, by simp [find_skills_recursive, try_parse_skill, hman, herr]⟩
  | cons n rest ih =>
    intro fuel d rel st hf hr
    cases fuel with
    | zero => simp at hf
    | succ f =>
      rw [reachesInvalid] at hr
      simp only [Bool.and_eq_true, Option.isNone_iff_eq_none] at hr
      obtain ⟨⟨hman, hskip⟩, hrest⟩ := hr
      have hskip2 : skipName n = false := by simpa using hskip
      cases hchild : lookupList d.subdirs n with
      | none => simp only [hchild] at hrest; cases hrest
      | some child =>
        simp only [hchild] at hrest
        have hlen : rest.length < f := by simpa using hf
        obtain ⟨e2, h2⟩ := walkChildren_err (fun c r s => find_skills_recursive f c r s)
          d.subdirs rel
          ⟨(n, child), lookupList_mem hchild, hskip2,
           fun s => ih f child (rel ++ [n]) s hlen hrest⟩ st
        exact ⟨e2, by simpa [find_skills_recursive, try_parse_skill, hman] using h2⟩

/-- C6: a directory reached by the scan whose `SKILL.md` exists but fails
validation (missing opening delimiter, unclosed frontmatter, unparsable
block, or empty/missing name or description) makes the whole
`discover_skills` call return a manifest-validation error and no skills:
(a) when the effective root itself is invalid; (b) when a child of an
existing priority directory is invalid; (c) when the priority scan yields
no skills — whether its directories are absent or merely skill-free — and
the recursive fallback walk then reaches an invalid directory. -/
theorem discover_aborts_on_invalid_manifest :
    (∀ base sub sp c e, lookupDirPath base (sub.getD []) = some sp →
       sp.manifest = some c → parse_frontmatter c = .error e →
       discover_skills base sub = .error e)
  ∧ (∀ base sub sp, lookupDirPath base (sub.getD []) = some sp → sp.manifest = none →
       (∃ ds, ds ∈ SEARCH_DIRS ∧ ∃ dp, lookupDirPath sp ds = some dp ∧
         ∃ p, p ∈ dp.subdirs ∧ ∃ c e, p.2.manifest = some c ∧
           parse_frontmatter c = .error e) →
       ∃ e2, discover_skills base sub = .error e2)
  ∧ (∀ base sub sp ip st, lookupDirPath base (sub.getD []) = some sp → sp.manifest = none →
       scanDirsList sp (sub.getD []) SEARCH_DIRS ([], []) = .ok st → st.1 = [] →
       ip.length < 6 → reachesInvalid sp ip = true →
       ∃ e2, discover_skills base sub = .error e2) := by
  refine ⟨?_, ?_, ?_⟩
  · intro base sub sp c e h1 h2 h3
    simp [discover_skills, h1, try_parse_skill, h2, h3]
  · intro base sub sp h1 h2 hbad
    obtain ⟨e2, h3⟩ := scanDirsList_err SEARCH_DIRS sp (sub.getD []) ([], []) hbad
    exact ⟨e2, by simp [discover_skills, h1, try_parse_skill, h2, h3]⟩
  · intro base sub sp ip st h1 h2 hscan hempty hlen hreach
    obtain ⟨e2, h3⟩ := find_skills_recursive_err ip 6 sp (sub.getD []) st hlen hreach
    exact ⟨e2, by simp [discover_skills, h1, try_parse_skill, h2, hscan, hempty, h3]⟩

/-- Witness for C6 in all three scan positions: an invalid manifest at the
root, in a priority directory's child, and down the recursive fallback on
a tree whose `skills/` priority directory exists but holds no skill. -/
theorem discover_aborts_on_invalid_manifest_witness :
    discover_skills exBadDir none = .error .noOpeningDelimiter
  ∧ (∃ e2, discover_skills exPriorityBad none = .error e2)
  ∧ (∃ e2, discover_skills exRecurseBad none = .error e2) :=
  ⟨discover_aborts_on_invalid_manifest.1 exBadDir none exBadDir "name: x"
      .noOpeningDelimiter (by decide) (by decide) (by decide),
   discover_aborts_on_invalid_manifest.2.1 exPriorityBad none
      (Dir.mk none [] [("skills", Dir.mk none [] [("x", exBadDir)])]) (by decide) (by decide)
      ⟨["skills"], by decide, Dir.mk none [] [("x", exBadDir)], by decide,
       ("x", exBadDir), by decide, "name: x", .noOpeningDelimiter, by decide, by decide⟩,
   discover_aborts_on_invalid_manifest.2.2 exRecurseBad none exRecurseBad ["lib"] ([], [])
      (by decide) (by decide) (by decide) (by decide) (by decide) (by decide)⟩

/-! ## C8 — first-occurrence deduplication -/

theorem find_skills_in_dir_eq_candidates :
    ∀ (cs : List (String × Dir)) (rel : List String) (st : DiscState),
      find_skills_in_dir cs rel st =
        (candidates_in_dir cs rel).map (fun l => l.foldl addDedup st) := by
  intro cs
  induction cs with
  | nil => intro rel st; simp [find_skills_in_dir, candidates_in_dir]
  | cons hd tl ih =>
    intro rel st
    obtain ⟨n, d⟩ := hd
    cases htp : try_parse_skill d (rel ++ [n]) with
    | error e => simp [find_skills_in_dir, candidates_in_dir, htp]
    | ok r =>
      cases r with
      | none => simp [find_skills_in_dir, candidates_in_dir, htp, ih]
      | some sk =>
        simp only [find_skills_in_dir, candidates_in_dir, htp, ih]
        cases hc : candidates_in_dir tl rel with
        | error e => simp
        | ok l => simp

theorem walkChildren_eq_candidates :
    ∀ (step : Dir → List String → DiscState → Except ManifestErr DiscState)
      (stepC : Dir → List String → Except ManifestErr (List Skill)),
      (∀ c r s, step c r s = (stepC c r).map (fun l => l.foldl addDedup s)) →
      ∀ (cs : List (String × Dir)) (rel : List String) (st : DiscState),
        walkChildren step cs rel st =
          (walkChildrenC stepC cs rel).map (fun l => l.foldl addDedup st) := by
  intro step stepC hstep cs
  induction cs with
  | nil => intro rel st; simp [walkChildren, walkChildrenC]
  | cons hd tl ih =>
    intro rel st
    obtain ⟨n, c⟩ := hd
    by_cases hsk : skipName n
    · simp [walkChildren, walkChildrenC, hsk, ih]
    · simp only [walkChildren, walkChildrenC, hsk, Bool.false_eq_true, if_neg, hstep]
      cases hc : stepC c (rel ++ [n]) with
      | error e => simp
      | ok l =>
        simp only [Except.map, ih]
        cases hc2 : walkChildrenC stepC tl rel with
        | error e => simp
        | ok l2 => simp [List.foldl_append]

theorem find_skills_recursive_eq_candidates :
    ∀ (fuel : Nat) (d : Dir) (rel : List String) (st : DiscState),
      find_skills_recursive fuel d rel st =
        (candidates_recursive fuel d rel).map (fun l => l.foldl addDedup st) := by
  intro fuel
  induction fuel with
  | zero => intro d rel st; simp [find_skills_recursive, candidates_recursive]
  | succ f ih =>
    intro d rel st
    cases htp : try_parse_skill d rel with
    | error e => simp [find_skills_recursive, candidates_recursive, htp]
    | ok r =>
      cases r with
      | some sk => simp [find_skills_recursive, candidates_recursive, htp]
      | none =>
        simp only [find_skills_recursive, candidates_recursive, htp]
        exact walkChildren_eq_candidates _ _ (fun c r s => ih c r s) d.subdirs rel st

theorem scanDirsList_eq_candidates :
    ∀ (dirs : List (List String)) (sp : Dir) (rel : List String) (st : DiscState),
      scanDirsList sp rel dirs st =
        (scanDirsListC sp rel dirs).map (fun l => l.foldl addDedup st) := by
  intro dirs
  induction dirs with
  | nil => intro sp rel st; simp [scanDirsList, scanDirsListC]
  | cons ds0 tl ih =>
    intro sp rel st
    cases hl : lookupDirPath sp ds0 with
    | none => simp [scanDirsList, scanDirsListC, hl, ih]
    | some dp =>
      simp only [scanDirsList, scanDirsListC, hl, find_skills_in_dir_eq_candidates]
      cases hc : candidates_in_dir dp.subdirs (rel ++ ds0) with
      | error e => simp
      | ok l =>
        simp only [Except.map, ih]
        cases hc2 : scanDirsListC sp rel tl with
        | error e => simp
        | ok l2 => simp [List.foldl_append]

theorem containsStr_iff (l : List String) (a : String) : l.contains a = true ↔ a ∈ l := by
  simp [List.contains, List.elem_iff]

theorem foldl_addDedup_extends :
    ∀ (cs : List Skill) (st : DiscState), ∃ suf, (cs.foldl addDedup st).1 = st.1 ++ suf := by
  intro cs
  induction cs with
  | nil => intro st; exact ⟨[], by simp⟩
  | cons sk tl ih =>
    intro st
    simp only [List.foldl_cons]
    by_cases h : st.2.contains sk.metadata.name
    · rw [addDedup, if_pos h]
      exact ih st
    · rw [addDedup, if_neg h]
      obtain ⟨suf, hsuf⟩ := ih (st.1 ++ [sk], st.2 ++ [sk.metadata.name])
      exact ⟨sk :: suf, by simpa using hsuf⟩

theorem foldl_addDedup_nil_ne (sk : Skill) (tl : List Skill) :
    ((sk :: tl).foldl addDedup ([], [])).1 ≠ [] := by
  simp only [List.foldl_cons]
  have hadd : addDedup ([], []) sk = ([sk], [sk.metadata.name]) := by
    rw [addDedup, if_neg (by simp [List.contains])]
    rfl
  rw [hadd]
  obtain ⟨suf, hsuf⟩ := foldl_addDedup_extends tl ([sk], [sk.metadata.name])
  simp [hsuf]

theorem foldl_addDedup_nodup :
    ∀ (cs : List Skill) (st : DiscState),
      (st.1.map (fun s => s.metadata.name)).Nodup →
      (∀ x, x ∈ st.1.map (fun s => s.metadata.name) → st.2.contains x = true) →
      ((cs.foldl addDedup st).1.map (fun s => s.metadata.name)).Nodup := by
  intro cs
  induction cs with
  | nil => intro st h1 _; exact h1
  | cons sk tl ih =>
    intro st h1 h2
    simp only [List.foldl_cons]
    by_cases h : st.2.contains sk.metadata.name
    · rw [addDedup, if_pos h]
      exact ih st h1 h2
    · rw [addDedup, if_neg h]
      apply ih
      · have hnotin : sk.metadata.name ∉ st.1.map (fun s => s.metadata.name) :=
          fun hmem => h (h2 _ hmem)
        simp only [List.map_append, List.map_cons, List.map_nil]
        exact List.Nodup.append h1 (List.nodup_singleton _)
          (fun a ha hb => by
            simp only [List.mem_singleton] at hb
            subst hb
            exact hnotin ha)
      · intro x hx
        simp only [List.map_append, List.map_cons, List.map_nil, List.mem_append,
          List.mem_singleton] at hx
        rw [containsStr_iff]
        rcases hx with hx | rfl
        · exact List.mem_append_left _ ((containsStr_iff _ _).mp (h2 x hx))
        · exact List.mem_append_right _ (List.mem_singleton_self _)

/-- C8: discovery equals first-occurrence deduplication (by manifest name,
in the fixed scan order) of the full candidate enumeration, and therefore
every returned list carries pairwise distinct manifest names — later
duplicates are silently dropped. -/
theorem discover_dedups_first_occurrence :
    (∀ base sub, discover_skills base sub = (discover_candidates base sub).map dedupFirst)
  ∧ (∀ base sub res, discover_skills base sub = .ok res →
       (res.map (fun s => s.metadata.name)).Nodup) := by
  have main : ∀ base sub,
      discover_skills base sub = (discover_candidates base sub).map dedupFirst := by
    intro base sub
    simp only [discover_skills, discover_candidates]
    cases hl : lookupDirPath base (sub.getD []) with
    | none => simp [hl, dedupFirst]
    | some sp =>
      cases htp : try_parse_skill sp (sub.getD []) with
      | error e => simp [hl, htp]
      | ok r =>
        cases r with
        | some sk => simp [hl, htp, dedupFirst, addDedup, List.contains]
        | none =>
          simp only [hl, htp]
          rw [scanDirsList_eq_candidates]
          cases hc : scanDirsListC sp (sub.getD []) SEARCH_DIRS with
          | error e => simp [hc]
          | ok cs =>
            simp only [hc, except_map_ok]
            cases cs with
            | nil =>
              simp only [List.foldl_nil, List.isEmpty_nil, if_true]
              rw [find_skills_recursive_eq_candidates]
              cases hr : candidates_recursive 6 sp (sub.getD []) with
              | error e => simp [hr]
              | ok l => simp [hr, dedupFirst]
            | cons sk tl =>
              have hne := foldl_addDedup_nil_ne sk tl
              rw [if_neg (by simpa using hne)]
              simp [dedupFirst]
  refine ⟨main, ?_⟩
  intro base sub res hres
  rw [main] at hres
  cases hc : discover_candidates base sub with
  | error e => rw [hc] at hres; cases hres
  | ok l =>
    rw [hc] at hres
    simp only [Except.map, Except.ok.injEq] at hres
    subst hres
    exact foldl_addDedup_nodup l ([], []) (by simp) (by simp)

/-- Witness for C8: on a tree with two same-named candidates only the
first survives, and the returned names are pairwise distinct. -/
theorem discover_dedups_first_occurrence_witness :
    discover_skills exDupTree none = (discover_candidates exDupTree none).map dedupFirst
  ∧ ([exDupSkill].map (fun s => s.metadata.name)).Nodup :=
  ⟨discover_dedups_first_occurrence.1 exDupTree none,
   discover_dedups_first_occurrence.2 exDupTree none [exDupSkill] (by decide)⟩

/-! ## C5 — the fan-out copy merges, it does not replace -/

theorem copyFileInto_cases {dst : Dir} {n c : String} {d1 : Dir}
    (h : copyFileInto dst n c = .ok d1) :
    lookupList dst.subdirs n = none
    ∧ ((n = "SKILL.md" ∧ d1 = .mk (some c) dst.files dst.subdirs)
       ∨ (n ≠ "SKILL.md" ∧ d1 = .mk dst.manifest (upsert dst.files n c) dst.subdirs)) := by
  rw [copyFileInto] at h
  by_cases hs : (lookupList dst.subdirs n).isSome = true
  · rw [if_pos hs] at h; cases h
  · rw [if_neg hs] at h
    refine ⟨Option.not_isSome_iff_eq_none.mp hs, ?_⟩
    by_cases hn : n = "SKILL.md"
    · rw [if_pos hn] at h
      injection h with h2
      exact Or.inl ⟨hn, h2.symm⟩
    · rw [if_neg hn] at h
      injection h with h2
      exact Or.inr ⟨hn, h2.symm⟩

theorem copyFileInto_subdirs {dst : Dir} {n c : String} {d1 : Dir}
    (h : copyFileInto dst n c = .ok d1) : d1.subdirs = dst.subdirs := by
  rcases (copyFileInto_cases h).2 with ⟨_, rfl⟩ | ⟨_, rfl⟩ <;> simp

theorem copyFileInto_fileAt_self {dst : Dir} {n c : String} {d1 : Dir}
    (h : copyFileInto dst n c = .ok d1) : fileAt d1 n = some c := by
  rcases (copyFileInto_cases h).2 with ⟨hn, rfl⟩ | ⟨hn, rfl⟩
  · simp [fileAt, hn]
  · simp [fileAt, hn, lookupList_upsert_self]

theorem copyFileInto_fileAt_other {dst : Dir} {n c : String} {d1 : Dir} {a : String}
    (h : copyFileInto dst n c = .ok d1) (ha : a ≠ n) : fileAt d1 a = fileAt dst a := by
  rcases (copyFileInto_cases h).2 with ⟨hn, rfl⟩ | ⟨hn, rfl⟩
  · have ha2 : ¬ a = "SKILL.md" := hn ▸ ha
    simp [fileAt, ha2]
  · by_cases ha2 : a = "SKILL.md"
    · simp [fileAt, ha2]
    · simp [fileAt, ha2, lookupList_upsert_ne _ _ _ _ ha]

theorem copyFilesList_subdirs :
    ∀ (fs : List (String × String)) (dst d1 : Dir),
      copyFilesList fs dst = .ok d1 → d1.subdirs = dst.subdirs := by
  intro fs
  induction fs with
  | nil =>
    intro dst d1 h
    injection h with h2
    rw [← h2]
  | cons hd tl ih =>
    intro dst d1 h
    obtain ⟨m, w⟩ := hd
    cases hc : copyFileInto dst m w with
    | error e => simp only [copyFilesList, hc] at h; cases h
    | ok dst1 =>
      simp only [copyFilesList, hc] at h
      rw [ih dst1 d1 h, copyFileInto_subdirs hc]

theorem copyFilesList_fileAt_notin :
    ∀ (fs : List (String × String)) (dst d1 : Dir) (a : String),
      copyFilesList fs dst = .ok d1 → ¬ a ∈ fs.map Prod.fst →
      fileAt d1 a = fileAt dst a := by
  intro fs
  induction fs with
  | nil =>
    intro dst d1 a h _
    injection h with h2
    rw [← h2]
  | cons hd tl ih =>
    intro dst d1 a h hnot
    obtain ⟨m, w⟩ := hd
    cases hc : copyFileInto dst m w with
    | error e => simp only [copyFilesList, hc] at h; cases h
    | ok dst1 =>
      simp only [copyFilesList, hc] at h
      have ham : a ≠ m := fun he => hnot (by simp [he])
      rw [ih dst1 d1 a h (fun hmem => hnot (by simp [hmem])),
        copyFileInto_fileAt_other hc ham]

theorem copyFilesList_fileAt_mem :
    ∀ (fs : List (String × String)) (dst d1 : Dir) (n c : String),
      nodupStr (fs.map Prod.fst) = true → lookupList fs n = some c →
      copyFilesList fs dst = .ok d1 → fileAt d1 n = some c := by
  intro fs
  induction fs with
  | nil => intro dst d1 n c _ hl _; simp [lookupList] at hl
  | cons hd tl ih =>
    intro dst d1 n c hnod hl h
    obtain ⟨m, w⟩ := hd
    cases hc : copyFileInto dst m w with
    | error e => simp only [copyFilesList, hc] at h; cases h
    | ok dst1 =>
      simp only [copyFilesList, hc] at h
      simp only [List.map_cons, nodupStr, Bool.and_eq_true, Bool.not_eq_eq_eq_not,
        Bool.not_true] at hnod
      by_cases hm : m = n
      · subst hm
        simp only [lookupList, eq_self_iff_true, if_true, Option.some.injEq] at hl
        subst hl
        have hnotin : ¬ m ∈ tl.map Prod.fst := by
          intro hmem
          have hcon := (containsStr_iff (tl.map Prod.fst) m).mpr hmem
          rw [hnod.1] at hcon
          cases hcon
        rw [copyFilesList_fileAt_notin tl dst1 d1 m h hnotin]
        exact copyFileInto_fileAt_self hc
      · simp only [lookupList, hm, if_neg hm] at hl
        exact ih dst1 d1 n c hnod.2 hl h

theorem copySubdirsList_files_manifest :
    ∀ (l : List (String × Dir)) (dst r : Dir),
      copySubdirsList l dst = .ok r → r.files = dst.files ∧ r.manifest = dst.manifest := by
  intro l
  induction l with
  | nil =>
    intro dst r h
    simp only [copySubdirsList, Except.ok.injEq] at h
    rw [← h]
    exact ⟨rfl, rfl⟩
  | cons hd tl ih =>
    intro dst r h
    obtain ⟨n, sub⟩ := hd
    by_cases hf : (fileAt dst n).isSome = true
    · simp only [copySubdirsList, if_pos hf] at h; cases h
    · simp only [copySubdirsList, if_neg hf] at h
      cases hc : copy_dir_recursive sub ((lookupList dst.subdirs n).getD emptyDir) with
      | error e => rw [hc] at h; cases h
      | ok sub1 =>
        rw [hc] at h
        obtain ⟨h1, h2⟩ := ih _ r h
        simp only [Dir.files_mk, Dir.manifest_mk] at h1 h2
        exact ⟨h1, h2⟩

theorem copySubdirsList_fileAt :
    ∀ (l : List (String × Dir)) (dst r : Dir) (a : String),
      copySubdirsList l dst = .ok r → fileAt r a = fileAt dst a := by
  intro l dst r a h
  obtain ⟨h1, h2⟩ := copySubdirsList_files_manifest l dst r h
  simp [fileAt, h1, h2]

theorem copySubdirsList_lookup_notin :
    ∀ (l : List (String × Dir)) (dst r : Dir) (n : String),
      copySubdirsList l dst = .ok r → ¬ n ∈ l.map Prod.fst →
      lookupList r.subdirs n = lookupList dst.subdirs n := by
  intro l
  induction l with
  | nil =>
    intro dst r n h _
    simp only [copySubdirsList, Except.ok.injEq] at h
    rw [← h]
  | cons hd tl ih =>
    intro dst r n h hnot
    obtain ⟨m, sub⟩ := hd
    by_cases hf : (fileAt dst m).isSome = true
    · simp only [copySubdirsList, if_pos hf] at h; cases h
    · simp only [copySubdirsList, if_neg hf] at h
      cases hc : copy_dir_recursive sub ((lookupList dst.subdirs m).getD emptyDir) with
      | error e => rw [hc] at h; cases h
      | ok sub1 =>
        rw [hc] at h
        have hnm : n ≠ m := fun he => hnot (by simp [he])
        rw [ih _ r n h (fun hmem => hnot (by simp [hmem]))]
        simp only [Dir.subdirs_mk]
        exact lookupList_upsert_ne _ _ _ _ hnm

theorem copySubdirsList_fileAt_none :
    ∀ (l : List (String × Dir)) (dst r : Dir) (n : String),
      copySubdirsList l dst = .ok r → n ∈ l.map Prod.fst → fileAt dst n = none := by
  intro l
  induction l with
  | nil => intro dst r n _ hmem; simp at hmem
  | cons hd tl ih =>
    intro dst r n h hmem
    obtain ⟨m, sub⟩ := hd
    by_cases hf : (fileAt dst m).isSome = true
    · simp only [copySubdirsList, if_pos hf] at h; cases h
    · simp only [copySubdirsList, if_neg hf] at h
      cases hc : copy_dir_recursive sub ((lookupList dst.subdirs m).getD emptyDir) with
      | error e => rw [hc] at h; cases h
      | ok sub1 =>
        rw [hc] at h
        simp only [List.map_cons, List.mem_cons] at hmem
        rcases hmem with rfl | hmem2
        · exact Option.not_isSome_iff_eq_none.mp hf
        · have := ih _ r n h hmem2
          simpa [fileAt] using this

theorem copySubdirsList_lookup_mem :
    ∀ (l : List (String × Dir)) (dst r : Dir) (n : String) (sub : Dir),
      nodupStr (l.map Prod.fst) = true → lookupList l n = some sub →
      copySubdirsList l dst = .ok r →
      ∃ sub1, copy_dir_recursive sub ((lookupList dst.subdirs n).getD emptyDir) = .ok sub1
        ∧ lookupList r.subdirs n = some sub1 := by
  intro l
  induction l with
  | nil => intro dst r n sub _ hl _; simp [lookupList] at hl
  | cons hd tl ih =>
    intro dst r n sub hnod hl h
    obtain ⟨m, dm⟩ := hd
    by_cases hf : (fileAt dst m).isSome = true
    · simp only [copySubdirsList, if_pos hf] at h; cases h
    · simp only [copySubdirsList, if_neg hf] at h
      cases hc : copy_dir_recursive dm ((lookupList dst.subdirs m).getD emptyDir) with
      | error e => rw [hc] at h; cases h
      | ok dm1 =>
        rw [hc] at h
        simp only [List.map_cons, nodupStr, Bool.and_eq_true, Bool.not_eq_eq_eq_not,
          Bool.not_true] at hnod
        by_cases hm : m = n
        · subst hm
          simp only [lookupList, eq_self_iff_true, if_true, Option.some.injEq] at hl
          subst hl
          have hnotin : ¬ m ∈ tl.map Prod.fst := by
            intro hmem
            have hcon := (containsStr_iff (tl.map Prod.fst) m).mpr hmem
            rw [hnod.1] at hcon
            cases hcon
          refine ⟨dm1, hc, ?_⟩
          rw [copySubdirsList_lookup_notin tl _ r m h hnotin]
          simp only [Dir.subdirs_mk]
          exact lookupList_upsert_self _ _ _
        · simp only [lookupList, hm, if_neg hm] at hl
          obtain ⟨sub1, hcp, hlook⟩ := ih _ r n sub hnod.2 hl h
          refine ⟨sub1, ?_, hlook⟩
          rw [Dir.subdirs_mk, lookupList_upsert_ne _ _ _ _ (fun he => hm he.symm)] at hcp
          exact hcp

theorem copy_dir_recursive_stages :
    ∀ (m : Option String) (fs : List (String × String)) (sds : List (String × Dir))
      (dst res : Dir),
      copy_dir_recursive (.mk m fs sds) dst = .ok res →
      ∃ d1 d2, (match m with
                | some c => copyFileInto dst "SKILL.md" c
                | none => .ok dst) = .ok d1
        ∧ copyFilesList fs d1 = .ok d2 ∧ copySubdirsList sds d2 = .ok res := by
  intro m fs sds dst res h
  cases m with
  | none =>
    have h2 : (match copyFilesList fs dst with
               | .error e => (.error e : Except FsErr Dir)
               | .ok dst2 => copySubdirsList sds dst2) = .ok res := h
    cases hf : copyFilesList fs dst with
    | error e =>
      simp only [hf] at h2
      exact Except.noConfusion h2
    | ok d2 =>
      simp only [hf] at h2
      exact ⟨dst, d2, rfl, hf, h2⟩
  | some c =>
    have h2 : (match copyFileInto dst "SKILL.md" c with
               | .error e => (.error e : Except FsErr Dir)
               | .ok dst1 =>
                 match copyFilesList fs dst1 with
                 | .error e => .error e
                 | .ok dst2 => copySubdirsList sds dst2) = .ok res := h
    cases hm : copyFileInto dst "SKILL.md" c with
    | error e =>
      simp only [hm] at h2
      exact Except.noConfusion h2
    | ok d1 =>
      simp only [hm] at h2
      cases hf : copyFilesList fs d1 with
      | error e =>
        simp only [hf] at h2
        exact Except.noConfusion h2
      | ok d2 =>
        simp only [hf] at h2
        exact ⟨d1, d2, hm, hf, h2⟩

theorem nodupStr_append :
    ∀ (x y : List String), nodupStr (x ++ y) = true →
      nodupStr x = true ∧ nodupStr y = true ∧ ∀ a, a ∈ x → ¬ a ∈ y := by
  intro x
  induction x with
  | nil => intro y h; exact ⟨rfl, h, by simp⟩
  | cons hd tl ih =>
    intro y h
    simp only [List.cons_append, nodupStr, Bool.and_eq_true, Bool.not_eq_eq_eq_not,
      Bool.not_true] at h
    obtain ⟨hcont, hrest⟩ := h
    obtain ⟨h1, h2, h3⟩ := ih y hrest
    have hnotmem : ¬ hd ∈ tl ++ y := by
      intro hmem
      have hcon := (containsStr_iff (tl.append y) hd).mpr hmem
      rw [hcont] at hcon
      cases hcon
    refine ⟨?_, h2, ?_⟩
    · simp only [nodupStr, Bool.and_eq_true, Bool.not_eq_eq_eq_not, Bool.not_true]
      refine ⟨?_, h1⟩
      cases hc : tl.contains hd
      · rfl
      · exact absurd (List.mem_append_left y ((containsStr_iff _ _).mp hc)) hnotmem
    · intro a ha hay
      rcases List.mem_cons.mp ha with rfl | hatl
      · exact hnotmem (List.mem_append_right tl hay)
      · exact h3 a hatl hay

theorem wfDir_parts :
    ∀ (m : Option String) (fs : List (String × String)) (sds : List (String × Dir)),
      wfDir (.mk m fs sds) = true →
      nodupStr (fs.map Prod.fst) = true
      ∧ nodupStr (sds.map Prod.fst) = true
      ∧ (∀ a, a ∈ fs.map Prod.fst → ¬ a ∈ sds.map Prod.fst)
      ∧ wfSubdirs sds = true := by
  intro m fs sds h
  rw [wfDir] at h
  simp only [Bool.and_eq_true] at h
  obtain ⟨⟨hnames, _⟩, hsub⟩ := h
  cases m with
  | none =>
    have h2 : nodupStr (fs.map Prod.fst ++ sds.map Prod.fst) = true := by
      simpa [entryNames] using hnames
    obtain ⟨a1, a2, a3⟩ := nodupStr_append _ _ h2
    exact ⟨a1, a2, a3, hsub⟩
  | some c =>
    have h2 : nodupStr ("SKILL.md" :: (fs.map Prod.fst ++ sds.map Prod.fst)) = true := by
      simpa [entryNames] using hnames
    simp only [nodupStr, Bool.and_eq_true] at h2
    obtain ⟨a1, a2, a3⟩ := nodupStr_append _ _ h2.2
    exact ⟨a1, a2, a3, hsub⟩

theorem wfDir_skillmd_files :
    ∀ (m : Option String) (fs : List (String × String)) (sds : List (String × Dir)),
      wfDir (.mk m fs sds) = true → ¬ "SKILL.md" ∈ fs.map Prod.fst := by
  intro m fs sds h hmem
  rw [wfDir] at h
  simp only [Bool.and_eq_true, Bool.not_eq_eq_eq_not, Bool.not_true] at h
  have hcon := (containsStr_iff _ _).mpr hmem
  rw [h.1.2] at hcon
  cases hcon

theorem wfSubdirs_lookup :
    ∀ (sds : List (String × Dir)) (n : String) (s : Dir),
      wfSubdirs sds = true → lookupList sds n = some s → wfDir s = true := by
  intro sds
  induction sds with
  | nil => intro n s _ hl; simp [lookupList] at hl
  | cons hd tl ih =>
    intro n s hw hl
    obtain ⟨m, d⟩ := hd
    simp only [wfSubdirs, Bool.and_eq_true] at hw
    by_cases hm : m = n
    · simp only [lookupList, if_pos hm, Option.some.injEq] at hl
      rw [← hl]
      exact hw.1
    · simp only [lookupList, if_neg hm] at hl
      exact ih n s hw.2 hl

theorem mem_entryNames_files :
    ∀ (m : Option String) (fs : List (String × String)) (sds : List (String × Dir))
      (n : String), n ∈ fs.map Prod.fst → n ∈ entryNames (.mk m fs sds) := by
  intro m fs sds n h
  cases m <;> simp [entryNames, h]

theorem mem_entryNames_subdirs :
    ∀ (m : Option String) (fs : List (String × String)) (sds : List (String × Dir))
      (n : String), n ∈ sds.map Prod.fst → n ∈ entryNames (.mk m fs sds) := by
  intro m fs sds n h
  cases m <;> simp [entryNames, h]

theorem mem_entryNames_manifest :
    ∀ (c : String) (fs : List (String × String)) (sds : List (String × Dir)),
      "SKILL.md" ∈ entryNames (.mk (some c) fs sds) := by
  intro c fs sds
  simp [entryNames]

theorem copy_preserves_src_files :
    ∀ (p : List String) (src dst res : Dir), wfDir src = true →
      copy_dir_recursive src dst = .ok res →
      ∀ c, lookupFileAt src p = some c → lookupFileAt res p = some c := by
  intro p
  induction p with
  | nil => intro src dst res _ _ c hc; simp [lookupFileAt] at hc
  | cons n rest ih =>
    intro src dst res hwf hcopy c hc
    obtain ⟨m, fs, sds⟩ := src
    obtain ⟨d1, d2, hs1, hs2, hs3⟩ := copy_dir_recursive_stages m fs sds dst res hcopy
    obtain ⟨w1, w2, w3, wsub⟩ := wfDir_parts m fs sds hwf
    cases rest with
    | nil =>
      simp only [lookupFileAt] at hc ⊢
      by_cases hn : n = "SKILL.md"
      · subst hn
        rw [fileAt, if_pos rfl, Dir.manifest_mk] at hc
        rw [hc] at hs1
        have hs1b : copyFileInto dst "SKILL.md" c = .ok d1 := hs1
        have hfa1 : fileAt d1 "SKILL.md" = some c := copyFileInto_fileAt_self hs1b
        have hskill := wfDir_skillmd_files m fs sds hwf
        rw [copySubdirsList_fileAt sds d2 res _ hs3,
          copyFilesList_fileAt_notin fs d1 d2 _ hs2 hskill]
        exact hfa1
      · rw [fileAt, if_neg hn, Dir.files_mk] at hc
        rw [copySubdirsList_fileAt sds d2 res n hs3]
        exact copyFilesList_fileAt_mem fs d1 d2 n c w1 hc hs2
    | cons r2 rrest =>
      simp only [lookupFileAt, Dir.subdirs_mk] at hc
      cases hsub : lookupList sds n with
      | none => rw [hsub] at hc; cases hc
      | some sub =>
        rw [hsub] at hc
        obtain ⟨sub1, hcp, hlook⟩ := copySubdirsList_lookup_mem sds d2 res n sub w2 hsub hs3
        have hwfsub : wfDir sub = true := wfSubdirs_lookup sds n sub wsub hsub
        have hres : lookupFileAt sub1 (r2 :: rrest) = some c :=
          ih sub _ sub1 hwfsub hcp c hc
        simp only [lookupFileAt]
        rw [hlook]
        exact hres

theorem copy_preserves_free_dst_files :
    ∀ (p : List String) (src dst res : Dir), wfDir src = true →
      copy_dir_recursive src dst = .ok res → FreePath src p →
      ∀ c, lookupFileAt dst p = some c → lookupFileAt res p = some c := by
  intro p
  induction p with
  | nil => intro src dst res _ _ _ c hc; simp [lookupFileAt] at hc
  | cons n rest ih =>
    intro src dst res hwf hcopy hfree c hc
    obtain ⟨m, fs, sds⟩ := src
    obtain ⟨d1, d2, hs1, hs2, hs3⟩ := copy_dir_recursive_stages m fs sds dst res hcopy
    obtain ⟨w1, w2, w3, wsub⟩ := wfDir_parts m fs sds hwf
    have hd1subdirs : d1.subdirs = dst.subdirs := by
      cases m with
      | none =>
        have hs1b : (Except.ok dst : Except FsErr Dir) = .ok d1 := hs1
        injection hs1b with h2
        rw [← h2]
      | some c0 =>
        have hs1b : copyFileInto dst "SKILL.md" c0 = .ok d1 := hs1
        exact copyFileInto_subdirs hs1b
    cases hfree with
    | off _ _ _ hnot =>
      have hnf : ¬ n ∈ fs.map Prod.fst := fun hm2 => hnot (mem_entryNames_files m fs sds n hm2)
      have hns : ¬ n ∈ sds.map Prod.fst :=
        fun hm2 => hnot (mem_entryNames_subdirs m fs sds n hm2)
      cases rest with
      | nil =>
        simp only [lookupFileAt] at hc ⊢
        have hfa1 : fileAt d1 n = fileAt dst n := by
          cases m with
          | none =>
            have hs1b : (Except.ok dst : Except FsErr Dir) = .ok d1 := hs1
            injection hs1b with h2
            rw [← h2]
          | some c0 =>
            have hs1b : copyFileInto dst "SKILL.md" c0 = .ok d1 := hs1
            have hn2 : n ≠ "SKILL.md" :=
              fun he => hnot (he ▸ mem_entryNames_manifest c0 fs sds)
            exact copyFileInto_fileAt_other hs1b hn2
        rw [copySubdirsList_fileAt sds d2 res n hs3,
          copyFilesList_fileAt_notin fs d1 d2 n hs2 hnf, hfa1]
        exact hc
      | cons r2 rrest =>
        simp only [lookupFileAt] at hc ⊢
        have hl1 : lookupList res.subdirs n = lookupList dst.subdirs n := by
          rw [copySubdirsList_lookup_notin sds d2 res n hs3 hns,
            copyFilesList_subdirs fs d1 d2 hs2, hd1subdirs]
        rw [hl1]
        exact hc
    | deeper _ _ _ child hchild hfp =>
      have hchild2 : lookupList sds n = some child := by simpa using hchild
      have hmem : n ∈ sds.map Prod.fst := by
        rw [List.mem_map]
        exact ⟨(n, child), lookupList_mem hchild2, rfl⟩
      cases rest with
      | nil =>
        exfalso
        simp only [lookupFileAt] at hc
        have hnone : fileAt d2 n = none := copySubdirsList_fileAt_none sds d2 res n hs3 hmem
        by_cases hn : n = "SKILL.md"
        · subst hn
          cases m with
          | none =>
            have hs1b : (Except.ok dst : Except FsErr Dir) = .ok d1 := hs1
            injection hs1b with h2
            have hskill := wfDir_skillmd_files none fs sds hwf
            rw [copyFilesList_fileAt_notin fs d1 d2 _ hs2 hskill, ← h2, hc] at hnone
            cases hnone
          | some c0 =>
            have hs1b : copyFileInto dst "SKILL.md" c0 = .ok d1 := hs1
            have hf1 : fileAt d1 "SKILL.md" = some c0 := copyFileInto_fileAt_self hs1b
            have hskill := wfDir_skillmd_files (some c0) fs sds hwf
            rw [copyFilesList_fileAt_notin fs d1 d2 _ hs2 hskill, hf1] at hnone
            cases hnone
        · have hnf : ¬ n ∈ fs.map Prod.fst := fun hm2 => w3 n hm2 hmem
          have hfa1 : fileAt d1 n = some c := by
            cases m with
            | none =>
              have hs1b : (Except.ok dst : Except FsErr Dir) = .ok d1 := hs1
              injection hs1b with h2
              rw [← h2]
              exact hc
            | some c0 =>
              have hs1b : copyFileInto dst "SKILL.md" c0 = .ok d1 := hs1
              rw [copyFileInto_fileAt_other hs1b hn]
              exact hc
          rw [copyFilesList_fileAt_notin fs d1 d2 n hs2 hnf, hfa1] at hnone
          cases hnone
      | cons r2 rrest =>
        simp only [lookupFileAt] at hc ⊢
        cases hds : lookupList dst.subdirs n with
        | none => rw [hds] at hc; cases hc
        | some s =>
          rw [hds] at hc
          obtain ⟨sub1, hcp, hlook⟩ :=
            copySubdirsList_lookup_mem sds d2 res n child w2 hchild2 hs3
          have hd2sub : d2.subdirs = dst.subdirs := by
            rw [copyFilesList_subdirs fs d1 d2 hs2, hd1subdirs]
          rw [hd2sub, hds] at hcp
          have hwfchild : wfDir child = true := wfSubdirs_lookup sds n child wsub hchild2
          have hres := ih child _ sub1 hwfchild hcp hfp c hc
          rw [hlook]
          exact hres

/-- C5 counterexample: reinstalling the example skill over an install
target whose `pdf/` directory holds a stale file does not clear it — the
stale file survives although it is absent from the new skill tree, so the
target does not contain exactly a copy of the skill tree. -/
theorem install_copy_keeps_stale_file_cex :
    (install_skill_to_agents "pdf" exSkillDir exInstalledCwd).map
        (fun r => (lookupFileAt r [".claude", "skills", "pdf", "stale.txt"],
                   lookupFileAt r [".claude", "skills", "pdf", "new.txt"])) =
      .ok (some "old", some "new content")
  ∧ lookupFileAt exSkillDir ["stale.txt"] = none :=
  ⟨by decide, by decide⟩

/-- C5 amended: after the fan-out copy each Install Target's `<name>/`
directory contains every file of the discovered skill tree (same-named
files overwritten), but prior contents are NOT overwritten wholesale:
every destination file on a path the source tree does not touch survives,
so files from an earlier install that are absent from the new tree
remain. -/
theorem copy_dir_merges_without_clearing :
    ∀ src dst res, wfDir src = true → copy_dir_recursive src dst = .ok res →
      (∀ p c, lookupFileAt src p = some c → lookupFileAt res p = some c)
      ∧ (∀ p c, FreePath src p → lookupFileAt dst p = some c →
           lookupFileAt res p = some c) :=
  fun src dst res hwf hcopy =>
    ⟨fun p c hc => copy_preserves_src_files p src dst res hwf hcopy c hc,
     fun p c hf hc => copy_preserves_free_dst_files p src dst res hwf hcopy hf c hc⟩

/-- Witness for the amended C5: copying the example skill over a directory
with a stale file keeps both the new file and the stale one. -/
theorem copy_dir_merges_without_clearing_witness :
    lookupFileAt exMergedDir ["new.txt"] = some "new content"
  ∧ lookupFileAt exMergedDir ["stale.txt"] = some "old" :=
  ⟨(copy_dir_merges_without_clearing exSkillDir exStaleDir exMergedDir
      (by decide) (by decide)).1 ["new.txt"] "new content" (by decide),
   (copy_dir_merges_without_clearing exSkillDir exStaleDir exMergedDir
      (by decide) (by decide)).2 ["stale.txt"] "old"
      (FreePath.off exSkillDir "stale.txt" [] (by decide)) (by decide)⟩

end Agpm
